import Mathlib

/-!
Verification of the marker/segment consistency engine of the mp3player
repository.  The definitions below are a shallow embedding of
`mp3player/segment.py` and `mp3player/marker_manager.py`: python floats are
modelled as rationals, marker dicts as the `Marker` structure, the segment
objects as the `Segment` structure, and the stateful manager methods as pure
functions from state to state.
-/

namespace Mp3

/-- A marker dict `{'time': .., 'name': .., 'comment': .., 'content': ..}`
from `marker_manager.py`. -/
structure Marker where
  time : ℚ
  name : String
  comment : String
  content : String
deriving DecidableEq, Repr

/-- A `Segment` object from `segment.py`.  `duration` is stored at
construction time, exactly as `__init__` does. -/
structure Segment where
  index : Nat
  start_time : ℚ
  end_time : ℚ
  duration : ℚ
  comment : String
  content : String
deriving DecidableEq, Repr

/-- `Segment.__init__` (segment.py lines 40-68): raises `ValueError` when
`start_time > end_time`, otherwise builds the object with
`duration = end_time - start_time`.  The raise is modelled as `none`. -/
def Segment.make (index : Nat) (start_time end_time : ℚ)
    (comment content : String) : Option Segment :=
  if start_time > end_time then none
  else some ⟨index, start_time, end_time, end_time - start_time, comment, content⟩

/-- `Segment.contains_time` (segment.py line 88):
`start_time <= time <= end_time`. -/
def Segment.contains_time (s : Segment) (t : ℚ) : Bool :=
  decide (s.start_time ≤ t ∧ t ≤ s.end_time)

/-! ### Stable sorting of markers by time

Python's `list.sort(key=lambda m: m["time"])` / `sorted(markers, key=...)` is
a stable sort; `insertByTime`/`sortByTime` implement the same stable sort. -/

def insertByTime (m : Marker) : List Marker → List Marker
  | [] => [m]
  | x :: xs => if x.time < m.time then x :: insertByTime m xs else m :: x :: xs

def sortByTime : List Marker → List Marker
  | [] => []
  | x :: xs => insertByTime x (sortByTime xs)

theorem insertByTime_perm (m : Marker) (l : List Marker) :
    (insertByTime m l).Perm (m :: l) := by
  induction l with
  | nil => simp [insertByTime]
  | cons x xs ih =>
      simp only [insertByTime]
      split
      · exact ((ih.cons x).trans (List.Perm.swap m x xs)).symm.symm
      · rfl

theorem sortByTime_perm (l : List Marker) : (sortByTime l).Perm l := by
  induction l with
  | nil => rfl
  | cons x xs ih =>
      simpa [sortByTime] using (insertByTime_perm x (sortByTime xs)).trans (ih.cons x)

/-- Sortedness predicate used throughout: adjacent times weakly increase. -/
def TimeSorted (l : List Marker) : Prop :=
  l.Chain' (fun a b => a.time ≤ b.time)

theorem insertByTime_sorted {m : Marker} {l : List Marker}
    (h : TimeSorted l) : TimeSorted (insertByTime m l) := by
  induction l with
  | nil => simp [insertByTime, TimeSorted]
  | cons x xs ih =>
      simp only [insertByTime]
      rcases List.chain'_cons'.1 h with ⟨hx, hxs⟩
      split
      · rename_i hlt
        refine List.chain'_cons'.2 ⟨?_, ih hxs⟩
        intro y hy
        cases xs with
        | nil =>
            simp [insertByTime] at hy
            subst hy; exact le_of_lt hlt
        | cons z zs =>
            simp only [insertByTime] at hy
            split at hy
            · simp at hy; subst hy
              exact hx z rfl
            · simp at hy; subst hy
              exact le_of_lt hlt
      · rename_i hge
        push_neg at hge
        refine List.chain'_cons'.2 ⟨?_, h⟩
        intro y hy
        simp at hy; subst hy
        exact hge

theorem sortByTime_sorted (l : List Marker) : TimeSorted (sortByTime l) := by
  induction l with
  | nil => simp [sortByTime, TimeSorted]
  | cons x xs ih => exact insertByTime_sorted ih

/-- Inserting into a sorted list whose head is not below `m` keeps `m` first;
sorting an already time-sorted list leaves it unchanged. -/
theorem sortByTime_eq_self {l : List Marker} (h : TimeSorted l) :
    sortByTime l = l := by
  induction l with
  | nil => rfl
  | cons x xs ih =>
      rcases List.chain'_cons'.1 h with ⟨hx, hxs⟩
      have hrec := ih hxs
      simp only [sortByTime, hrec]
      cases xs with
      | nil => rfl
      | cons y ys =>
          have hxy : x.time ≤ y.time := hx y rfl
          simp [insertByTime, not_lt.2 hxy]

theorem sortByTime_length (l : List Marker) :
    (sortByTime l).length = l.length :=
  (sortByTime_perm l).length_eq

/-! ### `SegmentManager._calculate_segments` (segment.py lines 119-213)

The previous segment list, together with the `used_old_segments` index set,
is modelled as a `List (Option Segment)`: a consumed entry is `none`.  The
list order and positions match python's `existing_segments` indices. -/

/-- `"\n".join(merged_content_parts)` where empty parts are skipped
(segment.py lines 184-189). -/
def joinContents (a b : String) : String :=
  if a ≠ "" then (if b ≠ "" then a ++ "\n" ++ b else a)
  else (if b ≠ "" then b else "")

/-- The per-segment condition of the first loop over `existing_segments`
(segment.py lines 153-172): exact match
(`old.start == new.start and old.end == new.end`) or left-aligned sub-range
(`old.start <= new.start < new.end <= old.end` with
`new.start == old.start`). -/
def esCond (ns nend : ℚ) (o : Segment) : Prop :=
  (o.start_time = ns ∧ o.end_time = nend) ∨
  (o.start_time ≤ ns ∧ ns < nend ∧ nend ≤ o.end_time ∧ ns = o.start_time)

instance (ns nend : ℚ) (o : Segment) : Decidable (esCond ns nend o) := by
  unfold esCond
  infer_instance

/-- The first loop (segment.py lines 153-172): take the first unconsumed
old segment satisfying `esCond`; its content is taken and it is consumed. -/
def exactSplitPass (ns nend : ℚ) : List (Option Segment) → String × List (Option Segment)
  | [] => ("", [])
  | none :: rest =>
      let p := exactSplitPass ns nend rest
      (p.1, none :: p.2)
  | some o :: rest =>
      if esCond ns nend o then
        (o.content, none :: rest)
      else
        let p := exactSplitPass ns nend rest
        (p.1, some o :: p.2)

/-- The inner loop of the merge pass (segment.py lines 179-195): scan for the
first index `k ≠ j`, not yet consumed, with
`old_seg2.end_time == new_end_time and old_seg.end_time == old_seg2.start_time`. -/
def findPartner (olds : List (Option Segment)) (ojEnd nend : ℚ) (j k : Nat) :
    Option (Nat × Segment) :=
  if hk : k < olds.length then
    if k = j then findPartner olds ojEnd nend j (k+1)
    else
      match olds.get ⟨k, hk⟩ with
      | none => findPartner olds ojEnd nend j (k+1)
      | some okSeg =>
          if okSeg.end_time = nend ∧ ojEnd = okSeg.start_time then some (k, okSeg)
          else findPartner olds ojEnd nend j (k+1)
  else none
termination_by olds.length - k
decreasing_by all_goals omega

/-- The outer loop of the merge pass (segment.py lines 174-195): every
unconsumed `j` with `old_seg.start_time == new_start_time` looks for a merge
partner; on success both are consumed, the joined content overwrites
`preserved_content`, and the outer scan continues with the next `j`. -/
def mergePassAux (ns nend : ℚ) (acc : Option String)
    (olds : List (Option Segment)) (j : Nat) : Option String × List (Option Segment) :=
  if hj : j < olds.length then
    match olds.get ⟨j, hj⟩ with
    | none => mergePassAux ns nend acc olds (j+1)
    | some oj =>
      if oj.start_time = ns then
        match findPartner olds oj.end_time nend j 0 with
        | some (k, okSeg) =>
            mergePassAux ns nend (some (joinContents oj.content okSeg.content))
              ((olds.set j none).set k none) (j+1)
        | none => mergePassAux ns nend acc olds (j+1)
      else mergePassAux ns nend acc olds (j+1)
  else (acc, olds)
termination_by olds.length - j
decreasing_by all_goals first
  | omega
  | (simp only [List.length_set]; omega)

/-- Content migration for one candidate segment `[ns, nend]`
(segment.py lines 151-195): the exact/split pass runs first, then the merge
pass runs unconditionally; a successful merge overwrites the pass-1 content. -/
def migrateContent (ns nend : ℚ) (olds : List (Option Segment)) :
    String × List (Option Segment) :=
  let p1 := exactSplitPass ns nend olds
  let p2 := mergePassAux ns nend none p1.2 0
  (p2.1.getD p1.1, p2.2)

/-- The loop over consecutive sorted markers (segment.py lines 142-209). -/
def calcSegmentsAux (i : Nat) (olds : List (Option Segment)) :
    List Marker → List Segment
  | m1 :: m2 :: rest =>
      let p := migrateContent m1.time m2.time olds
      { index := i, start_time := m1.time, end_time := m2.time,
        duration := m2.time - m1.time, comment := m1.comment, content := p.1 }
        :: calcSegmentsAux (i+1) p.2 (m2 :: rest)
  | _ => []

/-- `SegmentManager._calculate_segments` (segment.py lines 119-213): sort the
markers by time, return the empty list for fewer than two markers, otherwise
pair consecutive markers and migrate content from the previous segment list. -/
def calculateSegments (markers : List Marker) (existing : List Segment) :
    List Segment :=
  let sortedMarkers := sortByTime markers
  if sortedMarkers.length < 2 then []
  else calcSegmentsAux 0 (existing.map some) sortedMarkers

/-! ### Segment queries (segment.py lines 233-331) -/

/-- `SegmentManager.get_segment_by_index` (segment.py lines 233-245). -/
def getSegmentByIndex (segments : List Segment) (index : Nat) : Option Segment :=
  if h : index < segments.length then some (segments.get ⟨index, h⟩) else none

/-- `max(containing_segments, key=lambda s: s.index)`: python's `max` keeps
the first element with the greatest key. -/
def maxByIndex (x : Segment) (xs : List Segment) : Segment :=
  xs.foldl (fun acc s => if acc.index < s.index then s else acc) x

/-- `SegmentManager.get_segment_at_time` (segment.py lines 247-269): collect
all segments containing `time`, return `None` if there are none, otherwise
the one with the highest index. -/
def getSegmentAtTime (segments : List Segment) (time : ℚ) : Option Segment :=
  match segments.filter (fun s => s.contains_time time) with
  | [] => none
  | x :: xs => some (maxByIndex x xs)

/-! ### Structure of the computed segment list -/

theorem calcSegmentsAux_length :
    ∀ (ms : List Marker) (i : Nat) (olds : List (Option Segment)),
      (calcSegmentsAux i olds ms).length = ms.length - 1
  | [], _, _ => rfl
  | [_], _, _ => rfl
  | m1 :: m2 :: rest, i, olds => by
      simp only [calcSegmentsAux, List.length_cons,
        calcSegmentsAux_length (m2 :: rest) (i+1)]
      omega

theorem calcSegmentsAux_get? :
    ∀ (ms : List Marker) (i : Nat) (olds : List (Option Segment)) (k : Nat)
      (hk : k + 1 < ms.length),
      ∃ c : String, (calcSegmentsAux i olds ms).get? k =
        some { index := i + k,
               start_time := (ms.get ⟨k, Nat.lt_of_succ_lt hk⟩).time,
               end_time := (ms.get ⟨k+1, hk⟩).time,
               duration := (ms.get ⟨k+1, hk⟩).time - (ms.get ⟨k, Nat.lt_of_succ_lt hk⟩).time,
               comment := (ms.get ⟨k, Nat.lt_of_succ_lt hk⟩).comment,
               content := c }
  | [], _, _, _, hk => by simp at hk
  | [_], _, _, _, hk => by simp at hk
  | m1 :: m2 :: rest, i, olds, 0, hk => by
      refine ⟨(migrateContent m1.time m2.time olds).1, ?_⟩
      simp [calcSegmentsAux]
  | m1 :: m2 :: rest, i, olds, k+1, hk => by
      have hk' : k + 1 < (m2 :: rest).length := by
        simpa [Nat.succ_lt_succ_iff] using hk
      obtain ⟨c, hc⟩ := calcSegmentsAux_get? (m2 :: rest) (i+1)
        (migrateContent m1.time m2.time olds).2 k hk'
      refine ⟨c, ?_⟩
      have harith : i + 1 + k = i + (k + 1) := by omega
      simp only [calcSegmentsAux, List.get?_cons_succ, hc, harith, List.get_cons_succ]

theorem calcSegmentsAux_mem_le :
    ∀ (ms : List Marker) (i : Nat) (olds : List (Option Segment)) (s : Segment),
      TimeSorted ms → s ∈ calcSegmentsAux i olds ms →
      s.start_time ≤ s.end_time ∧ s.duration = s.end_time - s.start_time
  | [], _, _, _, _, hs => by simp [calcSegmentsAux] at hs
  | [_], _, _, _, _, hs => by simp [calcSegmentsAux] at hs
  | m1 :: m2 :: rest, i, olds, s, hsort, hs => by
      rcases List.chain'_cons'.1 hsort with ⟨h12, htail⟩
      simp only [calcSegmentsAux, List.mem_cons] at hs
      rcases hs with hs | hs
      · subst hs
        exact ⟨h12 m2 rfl, rfl⟩
      · exact calcSegmentsAux_mem_le (m2 :: rest) (i+1) _ s htail hs

/-! ### `max(containing, key=lambda s: s.index)` -/

theorem maxByIndex_mem (x : Segment) (xs : List Segment) :
    maxByIndex x xs ∈ x :: xs := by
  induction xs generalizing x with
  | nil => simp [maxByIndex]
  | cons s xs ih =>
      have hfold : maxByIndex x (s :: xs) = maxByIndex (if x.index < s.index then s else x) xs := rfl
      rw [hfold]
      have := ih (if x.index < s.index then s else x)
      rcases List.mem_cons.1 this with h | h
      · rw [h]
        split
        · simp
        · simp
      · exact List.mem_cons_of_mem _ (List.mem_cons_of_mem _ h)

theorem maxByIndex_ge (x : Segment) (xs : List Segment) :
    ∀ y ∈ x :: xs, y.index ≤ (maxByIndex x xs).index := by
  induction xs generalizing x with
  | nil => simp [maxByIndex]
  | cons s xs ih =>
      intro y hy
      simp only [maxByIndex, List.foldl_cons]
      have hrec := ih (if x.index < s.index then s else x)
      have hx : x.index ≤ (if x.index < s.index then s else x).index := by
        split
        · next h => exact le_of_lt h
        · exact le_refl _
      have hs : s.index ≤ (if x.index < s.index then s else x).index := by
        split
        · exact le_refl _
        · next h => exact le_of_not_lt h
      have hhead := hrec _ (List.mem_cons_self _ _)
      rcases List.mem_cons.1 hy with h | h
      · subst h
        exact le_trans hx hhead
      · rcases List.mem_cons.1 h with h | h
        · subst h
          exact le_trans hs hhead
        · exact hrec y (List.mem_cons_of_mem _ h)

theorem calculateSegments_eq (markers : List Marker) (existing : List Segment) :
    calculateSegments markers existing =
      if (sortByTime markers).length < 2 then []
      else calcSegmentsAux 0 (existing.map some) (sortByTime markers) := rfl

/-- C7: For a marker list with n ≥ 2 markers, segment recomputation produces
exactly n−1 segments indexed 0..n−2, where segment k spans from the k-th to
the (k+1)-th marker in ascending time order and its duration equals
end_time − start_time; for fewer than 2 markers it produces the empty
segment list without error. -/
theorem C7_segment_derivation (markers : List Marker) (existing : List Segment) :
    (markers.length < 2 → calculateSegments markers existing = []) ∧
    (2 ≤ markers.length →
      (calculateSegments markers existing).length = markers.length - 1 ∧
      ∀ k : Nat, k + 1 < markers.length →
        ∃ (m1 m2 : Marker) (c : String),
          (sortByTime markers).get? k = some m1 ∧
          (sortByTime markers).get? (k+1) = some m2 ∧
          (calculateSegments markers existing).get? k =
            some { index := k, start_time := m1.time, end_time := m2.time,
                   duration := m2.time - m1.time, comment := m1.comment,
                   content := c }) := by
  constructor
  · intro hlt
    rw [calculateSegments_eq, if_pos (by rw [sortByTime_length]; exact hlt)]
  · intro hge
    have hlen : ¬ (sortByTime markers).length < 2 := by
      rw [sortByTime_length]; omega
    constructor
    · rw [calculateSegments_eq, if_neg hlen, calcSegmentsAux_length, sortByTime_length]
    · intro k hk
      have hk' : k + 1 < (sortByTime markers).length := by
        rw [sortByTime_length]; exact hk
      obtain ⟨c, hc⟩ := calcSegmentsAux_get? (sortByTime markers) 0
        (existing.map some) k hk'
      refine ⟨(sortByTime markers).get ⟨k, Nat.lt_of_succ_lt hk'⟩,
        (sortByTime markers).get ⟨k+1, hk'⟩, c, ?_, ?_, ?_⟩
      · exact List.get?_eq_get (Nat.lt_of_succ_lt hk')
      · exact List.get?_eq_get hk'
      · rw [calculateSegments_eq, if_neg hlen]
        simpa using hc

/-- Concrete instance of C7: three markers yield two segments. -/
def msW : List Marker := [⟨3, "a", "", ""⟩, ⟨1, "b", "", ""⟩, ⟨2, "c", "", ""⟩]

theorem C7_segment_derivation_witness :
    2 ≤ msW.length ∧ (calculateSegments msW []).length = msW.length - 1 :=
  ⟨by decide, ((C7_segment_derivation msW []).2 (by decide)).1⟩

/-- C8: For every time t contained in at least one segment (segments are
closed intervals [start_time, end_time]), get_segment_at_time t returns a
segment containing t whose index is maximal among all containing segments —
so a boundary time shared by two adjacent segments belongs to the later
segment; if no segment contains t it returns None. -/
theorem C8_get_segment_at_time (segments : List Segment) (t : ℚ) :
    ((∃ s ∈ segments, s.contains_time t) →
      ∃ s, getSegmentAtTime segments t = some s ∧ s ∈ segments ∧
        s.contains_time t = true ∧
        ∀ s2 ∈ segments, s2.contains_time t = true → s2.index ≤ s.index) ∧
    ((∀ s ∈ segments, ¬ s.contains_time t = true) →
      getSegmentAtTime segments t = none) := by
  constructor
  · rintro ⟨s0, hs0, hc0⟩
    unfold getSegmentAtTime
    cases hfil : segments.filter (fun s => s.contains_time t) with
    | nil =>
        exfalso
        have := List.filter_eq_nil.1 hfil s0 hs0
        simp [hc0] at this
    | cons x xs =>
        refine ⟨maxByIndex x xs, rfl, ?_, ?_, ?_⟩
        · have hmem : maxByIndex x xs ∈ segments.filter (fun s => s.contains_time t) := by
            rw [hfil]; exact maxByIndex_mem x xs
          exact (List.mem_filter.1 hmem).1
        · have hmem : maxByIndex x xs ∈ segments.filter (fun s => s.contains_time t) := by
            rw [hfil]; exact maxByIndex_mem x xs
          simpa using (List.mem_filter.1 hmem).2
        · intro s2 hs2 hc2
          have : s2 ∈ segments.filter (fun s => s.contains_time t) :=
            List.mem_filter.2 ⟨hs2, by simp [hc2]⟩
          rw [hfil] at this
          exact maxByIndex_ge x xs s2 this
  · intro hnone
    unfold getSegmentAtTime
    have : segments.filter (fun s => s.contains_time t) = [] :=
      List.filter_eq_nil.2 (fun s hs => by simpa using hnone s hs)
    rw [this]

/-- Concrete instance of C8: the boundary time 25 shared by segments
[10,25] (index 0) and [25,40] (index 1) belongs to the later segment. -/
def segsW : List Segment := [⟨0, 10, 25, 15, "", ""⟩, ⟨1, 25, 40, 15, "", ""⟩]

theorem C8_get_segment_at_time_witness :
    ∃ s, getSegmentAtTime segsW 25 = some s ∧ s ∈ segsW ∧
      s.contains_time 25 = true ∧
      ∀ s2 ∈ segsW, s2.contains_time 25 = true → s2.index ≤ s.index :=
  (C8_get_segment_at_time segsW 25).1 ⟨⟨1, 25, 40, 15, "", ""⟩, by decide, by decide⟩

/-- C10: The Segment constructor raises ValueError exactly when
start_time > end_time, and this error branch is unreachable from segment
recomputation: every segment constructed by _calculate_segments satisfies
start_time ≤ end_time (markers are sorted ascending before pairing), so
rebuilding it through the validating constructor succeeds. -/
theorem C10_constructor_safety :
    (∀ (i : Nat) (s e : ℚ) (cm ct : String),
      Segment.make i s e cm ct = none ↔ e < s) ∧
    (∀ (markers : List Marker) (existing : List Segment) (sg : Segment),
      sg ∈ calculateSegments markers existing →
      sg.start_time ≤ sg.end_time ∧
      Segment.make sg.index sg.start_time sg.end_time sg.comment sg.content = some sg) := by
  constructor
  · intro i s e cm ct
    unfold Segment.make
    split_ifs with h
    · simpa [gt_iff_lt] using h
    · simp only [gt_iff_lt, not_lt] at h
      simp [not_lt.2 h]
  · intro markers existing sg hsg
    rw [calculateSegments_eq] at hsg
    split at hsg
    · simp at hsg
    · obtain ⟨hle, hdur⟩ := calcSegmentsAux_mem_le (sortByTime markers) 0
        (existing.map some) sg (sortByTime_sorted markers) hsg
      refine ⟨hle, ?_⟩
      unfold Segment.make
      rw [if_neg (not_lt.2 hle)]
      cases sg
      simp only at hdur hle ⊢
      simp [hdur]

theorem C10_constructor_safety_witness :
    Segment.make 0 25 10 "" "" = none ∧
    ∃ sg ∈ calculateSegments msW [], sg.start_time ≤ sg.end_time ∧
      Segment.make sg.index sg.start_time sg.end_time sg.comment sg.content = some sg := by
  refine ⟨(C10_constructor_safety.1 0 25 10 "" "").2 (by norm_num), ?_⟩
  obtain ⟨c, hc⟩ := calcSegmentsAux_get? (sortByTime msW) 0 (([] : List Segment).map some) 0 (by decide)
  have hmem := List.get?_mem hc
  rw [show calcSegmentsAux 0 (([] : List Segment).map some) (sortByTime msW) =
      calculateSegments msW [] from (by rw [calculateSegments_eq, if_neg (by decide)])] at hmem
  exact ⟨_, hmem, C10_constructor_safety.2 msW [] _ hmem⟩

/-! ### `MarkerManager` (marker_manager.py)

State: the `markers` list, the undo/redo stacks (head = most recent entry,
so python's `list.append`/`list.pop()` become cons/head) and the selected
index.  UI widgets, the playback process and persistence are out of scope;
`duration` (the loaded file's length) and parsed entry-field times are taken
as rational parameters.  Python's in-place dict mutation is modelled by
value replacement; the identity-based `list.index(obj)` lookup is modelled
as the first value-equal element. -/

/-- One record of the undo/redo stacks (the `operation` dicts with their
`action` tag). -/
inductive Operation where
  | move_marker (index : Nat) (from_time to_time : ℚ)
  | add_marker (index : Nat) (marker_data : Marker)
  | delete_marker (index : Nat) (marker_data : Marker)
  | delete_markers (markers_data : List Marker)
  | delete_all_markers (markers_data : List Marker)
deriving DecidableEq, Repr

/-- Statuses reported through `status_label` / early returns. -/
inductive OpResult where
  | success
  | maxMarkersReached
  | timeOutOfRange
  | tooCloseToExisting
  | noSelection
  | protectedMarker
  | nothingToDelete
  | nothingToUndo
  | nothingToRedo
deriving DecidableEq, Repr

structure MMState where
  markers : List Marker
  undo_stack : List Operation
  redo_stack : List Operation
  selected_marker_index : Option Nat
deriving DecidableEq, Repr

/-- The two permanently fixed markers are recognised by name
(`marker_manager.py` checks `name == "Marker0" or name == "Marker500"`). -/
def isFixed (m : Marker) : Bool :=
  decide (m.name = "Marker0") || decide (m.name = "Marker500")

/-- Renaming loop of `_renumber_user_markers` (lines 446-447): user marker
at position `i` of the time-sorted user list gets name `Marker{i+1}`. -/
def renameFrom (i : Nat) : List Marker → List Marker
  | [] => []
  | m :: rest => { m with name := "Marker" ++ toString (i+1) } :: renameFrom (i+1) rest

/-- `MarkerManager._renumber_user_markers` (lines 430-454): partition into
user/fixed markers, sort users by time, rename them `Marker1..MarkerN`,
merge and re-sort the whole list by time. -/
def renumberUserMarkers (ms : List Marker) : List Marker :=
  let user := ms.filter (fun m => !(isFixed m))
  let fixed := ms.filter (fun m => isFixed m)
  sortByTime (renameFrom 0 (sortByTime user) ++ fixed)

/-- `MarkerManager.push_to_undo_stack` (lines 462-471): append, truncate to
the most recent `max_history = 50` records, clear the redo stack. -/
def pushToUndoStack (s : MMState) (op : Operation) : MMState :=
  { s with undo_stack := (op :: s.undo_stack).take 50, redo_stack := [] }

/-- Near-zero clamp of both add paths (lines 141-143 and 745-747):
a requested time within 0.001 of 0.0 becomes 0.001. -/
def clampNearZero (t : ℚ) : ℚ :=
  if |t| < 1/1000 then 1/1000 else t

/-- The `1.0`-second proximity rejection of the add paths (lines 123-138 and
726-741): fixed markers are skipped. -/
def tooCloseAdd (ms : List Marker) (t : ℚ) : Bool :=
  ms.any (fun m => !(isFixed m) && decide (|m.time - t| < 1))

/-- Insertion common to both add paths (lines 153-174 and 757-765): append
the `TempMarker` dict, sort by time, renumber, then recover the renamed new
marker and its index (`self.markers.index(new_marker)`). -/
def insertAndRenumber (ms : List Marker) (newM : Marker) :
    List Marker × Marker × Nat :=
  let ms1 := sortByTime (ms ++ [newM])
  let users := sortByTime (ms1.filter (fun m => !(isFixed m)))
  let r := users.findIdx (fun m => decide (m = newM))
  let renamedNew := { newM with name := "Marker" ++ toString (r+1) }
  let ms2 := renumberUserMarkers ms1
  let idx := ms2.findIdx (fun m => decide (m = renamedNew))
  (ms2, renamedNew, idx)

/-- `MarkerManager.add_marker` (lines 47-182), the button path, with the
requested time `t` (preview time, parsed fields, or playback position)
already resolved.  Capacity, duration-tolerance and 1-second checks, the
near-zero clamp, insert + sort + renumber, select the new marker.
No undo record is pushed on this path. -/
def add_marker (dur t : ℚ) (s : MMState) : MMState × OpResult :=
  if s.markers.length ≥ 100 then (s, .maxMarkersReached)
  else if dur > 0 ∧ t > dur - 1/2 then (s, .timeOutOfRange)
  else if tooCloseAdd s.markers t then (s, .tooCloseToExisting)
  else
    let p := insertAndRenumber s.markers ⟨clampNearZero t, "TempMarker", "", ""⟩
    ({ s with markers := p.1, selected_marker_index := some p.2.2 }, .success)

/-- `MarkerManager.add_marker_at_time` (lines 685-798): same validation and
insertion as the button path, then an `add_marker` record with the resolved
index and a copy of the renamed new marker is pushed to the undo stack. -/
def add_marker_at_time (dur t : ℚ) (s : MMState) : MMState × OpResult :=
  if s.markers.length ≥ 100 then (s, .maxMarkersReached)
  else if dur > 0 ∧ t > dur - 1/2 then (s, .timeOutOfRange)
  else if tooCloseAdd s.markers t then (s, .tooCloseToExisting)
  else
    let p := insertAndRenumber s.markers ⟨clampNearZero t, "TempMarker", "", ""⟩
    let s1 := { s with markers := p.1, selected_marker_index := some p.2.2 }
    (pushToUndoStack s1 (.add_marker p.2.2 p.2.1), .success)

/-- `MarkerManager.update_selected_marker_time` (lines 986-1100): validation
excludes fixed markers and markers equal to the selected one, the new time
is clamped below 0.001, a `move_marker` record is pushed, the time is
updated in place and the list re-sorted (no renumbering). -/
def usmtChecked (dur t : ℚ) (s : MMState) (idx : Nat) (sel : Marker) :
    MMState × OpResult :=
  if dur > 0 ∧ t > dur - 1/2 then (s, .timeOutOfRange)
  else if s.markers.any (fun m =>
      !(decide (m = sel)) && !(isFixed m) && decide (|m.time - t| < 1)) then
    (s, .tooCloseToExisting)
  else
    let newT := if t < 1/1000 then 1/1000 else t
    let s1 := pushToUndoStack s (.move_marker idx sel.time newT)
    let updated := { sel with time := newT }
    let ms := sortByTime (s.markers.set idx updated)
    let newIdx := ms.findIdx (fun m => decide (m = updated))
    ({ s1 with markers := ms, selected_marker_index := some newIdx }, .success)

def update_selected_marker_time (dur t : ℚ) (s : MMState) : MMState × OpResult :=
  match s.selected_marker_index with
  | none => (s, .noSelection)
  | some idx =>
    match s.markers.get? idx with
    | none => (s, .noSelection)
    | some sel => usmtChecked dur t s idx sel

/-- The nearest-marker scan of `delete_nearest_marker` (lines 926-934):
first index strictly improving the distance wins. -/
def findNearest (ms : List Marker) (pos : ℚ) : Option (Nat × Marker) :=
  let r := ms.enum.foldl
    (fun acc p =>
      match acc with
      | none => some (p.1, p.2, |p.2.time - pos|)
      | some (bi, bm, bd) =>
          if |p.2.time - pos| < bd then some (p.1, p.2, |p.2.time - pos|)
          else some (bi, bm, bd))
    none
  r.map (fun q => (q.1, q.2.1))

/-- `MarkerManager.delete_nearest_marker` (lines 918-984): refuse fixed
markers, push a `delete_marker` record, delete (no renumbering).  The
confirmation dialog is modelled as accepted. -/
def dnmFound (s : MMState) (idx : Nat) (m : Marker) : MMState × OpResult :=
  if isFixed m then (s, .protectedMarker)
  else
    let s1 := pushToUndoStack s (.delete_marker idx m)
    ({ s1 with markers := s1.markers.eraseIdx idx }, .success)

def delete_nearest_marker (pos : ℚ) (s : MMState) : MMState × OpResult :=
  if s.markers.isEmpty then (s, .nothingToDelete)
  else
    match findNearest s.markers pos with
    | none => (s, .nothingToDelete)
    | some q => dnmFound s q.1 q.2

/-- Collection loop of `delete_selected_marker` (lines 193-198): keep
selected indices that are in range and not fixed, in selection order. -/
def collectToDelete (ms : List Marker) : List Nat → List (Nat × Marker)
  | [] => []
  | i :: rest =>
      match ms.get? i with
      | some m =>
          if isFixed m then collectToDelete ms rest
          else (i, m) :: collectToDelete ms rest
      | none => collectToDelete ms rest

/-- `markers_to_delete.sort(key=lambda x: x[0], reverse=True)`: stable
descending sort by index. -/
def insDesc (p : Nat × Marker) : List (Nat × Marker) → List (Nat × Marker)
  | [] => [p]
  | x :: xs => if x.1 > p.1 then x :: insDesc p xs else p :: x :: xs

def sortDescByIdx : List (Nat × Marker) → List (Nat × Marker)
  | [] => []
  | x :: xs => insDesc x (sortDescByIdx xs)

/-- `MarkerManager.delete_selected_marker` (lines 184-248): collect
deletable selected markers, push a `delete_markers` record carrying their
snapshots in descending-index order, delete from the end, renumber.  The
confirmation dialog is modelled as accepted. -/
def delete_selected_marker (sel : List Nat) (s : MMState) : MMState × OpResult :=
  if sel.isEmpty then (s, .noSelection)
  else
    let toDelete := sortDescByIdx (collectToDelete s.markers sel)
    if toDelete.isEmpty then (s, .protectedMarker)
    else
      let s1 := pushToUndoStack s (.delete_markers (toDelete.map Prod.snd))
      let ms := toDelete.foldl (fun ms p => ms.eraseIdx p.1) s1.markers
      ({ s1 with markers := renumberUserMarkers ms }, .success)

/-- `MarkerManager.delete_all_markers` (lines 250-302): keep only the fixed
markers, push a `delete_all_markers` record with a full backup.  The
confirmation dialog is modelled as accepted. -/
def delete_all_markers (s : MMState) : MMState × OpResult :=
  if (s.markers.filter (fun m => !(isFixed m))).isEmpty then (s, .nothingToDelete)
  else
    let s1 := pushToUndoStack s (.delete_all_markers s.markers)
    ({ s1 with markers := s.markers.filter (fun m => isFixed m) }, .success)

/-- `MarkerManager.edit_marker_by_index` (lines 1102-1129): select any
in-range marker (fixed ones included). -/
def edit_marker_by_index (idx : Nat) (s : MMState) : MMState :=
  if idx < s.markers.length then { s with selected_marker_index := some idx } else s

/-- `self.markers[marker_idx]["time"] = t` followed by a sort. -/
def setTime (ms : List Marker) (idx : Nat) (t : ℚ) : List Marker :=
  match ms.get? idx with
  | some m => ms.set idx { m with time := t }
  | none => ms

/-- Removal loop of the `add_marker` undo branch (lines 521-529): delete the
first marker whose time is within 0.001 of the recorded one and whose name
matches. -/
def removeFirstMatch (ms : List Marker) (data : Marker) : List Marker :=
  match ms.findIdx? (fun m =>
      decide (|m.time - data.time| < 1/1000) && decide (m.name = data.name)) with
  | some i => ms.eraseIdx i
  | none => ms

/-- Python's `list.insert(i, x)`: appends when `i` is past the end. -/
def insertAt : List Marker → Nat → Marker → List Marker
  | l, 0, m => m :: l
  | [], _+1, m => [m]
  | x :: xs, i+1, m => x :: insertAt xs i m

/-- `MarkerManager.undo_action` (lines 473-582): empty stack is a reported
no-op; otherwise the record moves to the redo stack and its `action` tag is
dispatched.  A `delete_markers` record (pushed by
`delete_selected_marker`) matches none of the `elif` branches, so the
marker list is left untouched. -/
def undo_action (s : MMState) : MMState × OpResult :=
  match s.undo_stack with
  | [] => (s, .nothingToUndo)
  | op :: rest =>
    let s1 := { s with undo_stack := rest, redo_stack := op :: s.redo_stack }
    match op with
    | .move_marker idx fromT _ =>
        if idx < s1.markers.length then
          ({ s1 with markers := sortByTime (setTime s1.markers idx fromT) }, .success)
        else (s1, .success)
    | .add_marker _ data =>
        ({ s1 with markers :=
            renumberUserMarkers (sortByTime (removeFirstMatch s1.markers data)) },
         .success)
    | .delete_marker idx data =>
        ({ s1 with markers := sortByTime (insertAt s1.markers idx data) }, .success)
    | .delete_all_markers data => ({ s1 with markers := data }, .success)
    | .delete_markers _ => (s1, .success)

/-- `MarkerManager.redo_action` (lines 584-683): symmetric dispatch; the
record is appended to the undo stack directly (no truncation, no
redo-clearing).  The `delete_all_markers` redo clears the whole marker list
(`self.markers.clear()`), fixed markers included; a `delete_markers` record
again matches no branch. -/
def redo_action (s : MMState) : MMState × OpResult :=
  match s.redo_stack with
  | [] => (s, .nothingToRedo)
  | op :: rest =>
    let s1 := { s with redo_stack := rest, undo_stack := op :: s.undo_stack }
    match op with
    | .move_marker idx _ toT =>
        if idx < s1.markers.length then
          ({ s1 with markers := sortByTime (setTime s1.markers idx toT) }, .success)
        else (s1, .success)
    | .add_marker _ data =>
        ({ s1 with markers :=
            renumberUserMarkers (sortByTime (s1.markers ++ [data])) }, .success)
    | .delete_marker idx _ =>
        if idx < s1.markers.length then
          ({ s1 with markers := sortByTime (s1.markers.eraseIdx idx) }, .success)
        else (s1, .success)
    | .delete_all_markers _ => ({ s1 with markers := [] }, .success)
    | .delete_markers _ => (s1, .success)

/-- Modelled from the spec: the player class (`mp3player/player.py` is not
under src/) creates the two fixed markers once when a file loads — `Marker0`
pinned at time 0 and `Marker500` pinned at the file's end-of-timeline
sentinel — with empty stacks and no selection. -/
def initState (dur : ℚ) : MMState :=
  { markers := [⟨0, "Marker0", "", ""⟩, ⟨dur, "Marker500", "", ""⟩],
    undo_stack := [], redo_stack := [], selected_marker_index := none }

/-! ### Basic lemmas about renumbering and insertion -/

theorem renameFrom_map_time (l : List Marker) :
    ∀ i, (renameFrom i l).map Marker.time = l.map Marker.time := by
  induction l with
  | nil => intro i; rfl
  | cons m rest ih => intro i; simp [renameFrom, ih (i+1)]

theorem renumberUserMarkers_map_time_perm (ms : List Marker) :
    ((renumberUserMarkers ms).map Marker.time).Perm (ms.map Marker.time) := by
  unfold renumberUserMarkers
  have h1 := (sortByTime_perm
    (renameFrom 0 (sortByTime (ms.filter (fun m => !(isFixed m)))) ++
      ms.filter (fun m => isFixed m))).map Marker.time
  refine h1.trans ?_
  rw [List.map_append, renameFrom_map_time]
  have h2 := (sortByTime_perm (ms.filter (fun m => !(isFixed m)))).map Marker.time
  refine (h2.append_right _).trans ?_
  have h3 := (List.filter_append_perm (fun m => !(isFixed m)) ms).map Marker.time
  rw [List.map_append] at h3
  refine (List.Perm.append_left _ ?_).trans h3
  have : ms.filter (fun m => !(!(isFixed m))) = ms.filter (fun m => isFixed m) := by
    congr 1
    funext m
    simp
  rw [this]

theorem insertAndRenumber_map_time_perm (ms : List Marker) (m : Marker) :
    ((insertAndRenumber ms m).1.map Marker.time).Perm (m.time :: ms.map Marker.time) := by
  unfold insertAndRenumber
  refine (renumberUserMarkers_map_time_perm _).trans ?_
  refine ((sortByTime_perm (ms ++ [m])).map Marker.time).trans ?_
  rw [List.map_append]
  simpa using List.perm_append_singleton m.time (ms.map Marker.time)

/-! ### C2 — the undo/redo law (code bug) -/

/-- C2: the claimed law fails in the code.  Failing input 1: from the fresh
state add a marker at 5, `delete_all_markers`, `undo`, `redo` — the claim
says redo always yields the fixed-only list, but `redo_action` runs
`self.markers.clear()`, deleting the fixed markers too, so the marker list
becomes empty rather than the post-delete-all fixed-only list.
Failing input 2: with user markers at 5 and 10, select index 1 and move it
to 20 (changing its sorted position), then `undo`; `redo` — the recorded
pre-move index now denotes a different marker, so the restored list differs
from the post-move list. -/
theorem C2_undo_redo_law_fails :
    (let sPost := (delete_all_markers (add_marker_at_time 500 5 (initState 500)).1).1
     sPost.markers =
        [Marker.mk 0 "Marker0" "" "", Marker.mk 500 "Marker500" "" ""] ∧
     (redo_action (undo_action sPost).1).1.markers = []) ∧
    (let sMoved := (update_selected_marker_time 500 20 (edit_marker_by_index 1
        (add_marker_at_time 500 5 (add_marker_at_time 500 10 (initState 500)).1).1)).1
     sMoved.markers.map Marker.time = [0, 10, 20, 500] ∧
     ((redo_action (undo_action sMoved).1).1.markers.map Marker.time = [0, 20, 20, 500])) := by
  constructor
  · constructor
    · norm_num [add_marker_at_time, initState, tooCloseAdd, insertAndRenumber,
        renumberUserMarkers, sortByTime, insertByTime, renameFrom, isFixed,
        clampNearZero, pushToUndoStack, delete_all_markers, List.filter,
        List.findIdx, List.findIdx.go, abs]
      all_goals decide
    · norm_num [add_marker_at_time, initState, tooCloseAdd, insertAndRenumber,
        renumberUserMarkers, sortByTime, insertByTime, renameFrom, isFixed,
        clampNearZero, pushToUndoStack, delete_all_markers, undo_action, redo_action,
        List.filter, List.findIdx, List.findIdx.go, abs]
      all_goals decide
  · constructor
    · norm_num [add_marker_at_time, initState, tooCloseAdd, insertAndRenumber,
        renumberUserMarkers, sortByTime, insertByTime, renameFrom, isFixed,
        clampNearZero, pushToUndoStack, update_selected_marker_time, usmtChecked,
        edit_marker_by_index, setTime, List.filter, List.findIdx, List.findIdx.go, abs]
      all_goals decide
    · norm_num [add_marker_at_time, initState, tooCloseAdd, insertAndRenumber,
        renumberUserMarkers, sortByTime, insertByTime, renameFrom, isFixed,
        clampNearZero, pushToUndoStack, update_selected_marker_time, usmtChecked,
        edit_marker_by_index, setTime, undo_action, redo_action,
        List.filter, List.findIdx, List.findIdx.go, abs]
      all_goals decide

/-! ### C3 — undo of a multi-marker deletion (code bug) -/

/-- The state after adding user markers at 10 and 5 and deleting both
through `delete_selected_marker` (listbox indices 1 and 2). -/
def c3State : MMState :=
  (delete_selected_marker [1, 2]
    (add_marker_at_time 500 5 (add_marker_at_time 500 10 (initState 500)).1).1).1

/-- C3: failing input: user markers at 5 and 10, delete both through
`delete_selected_marker` (which pushes a record tagged `delete_markers`),
then `undo_action`.  The undo stack was non-empty and the record is moved
to the redo stack, but no `elif` branch of `undo_action` handles the
`delete_markers` tag, so neither deleted marker is re-inserted: the marker
list stays at the fixed-only pair. -/
theorem C3_undo_skips_delete_markers_record :
    c3State.markers = [Marker.mk 0 "Marker0" "" "", Marker.mk 500 "Marker500" "" ""] ∧
    c3State.undo_stack ≠ [] ∧
    (undo_action c3State).1.markers = c3State.markers ∧
    (undo_action c3State).1.undo_stack = c3State.undo_stack.tail ∧
    (undo_action c3State).1.redo_stack = c3State.undo_stack.head?.toList := by
  refine ⟨?_, ?_, ?_, ?_, ?_⟩ <;>
    (norm_num [c3State, add_marker_at_time, initState, tooCloseAdd, insertAndRenumber,
      renumberUserMarkers, sortByTime, insertByTime, renameFrom, isFixed,
      clampNearZero, pushToUndoStack, delete_selected_marker, collectToDelete,
      sortDescByIdx, insDesc, undo_action, List.filter, List.findIdx,
      List.findIdx.go, abs]
     ; all_goals decide)

theorem usmt_eq_of_none {dur t : ℚ} {s : MMState}
    (h : s.selected_marker_index = none) :
    update_selected_marker_time dur t s = (s, .noSelection) := by
  unfold update_selected_marker_time
  simp only [h]

theorem usmt_eq_of_get_none {dur t : ℚ} {s : MMState} {idx : Nat}
    (h1 : s.selected_marker_index = some idx) (h2 : s.markers.get? idx = none) :
    update_selected_marker_time dur t s = (s, .noSelection) := by
  unfold update_selected_marker_time
  simp only [h1, h2]

theorem usmt_eq_of_get_some {dur t : ℚ} {s : MMState} {idx : Nat} {m : Marker}
    (h1 : s.selected_marker_index = some idx) (h2 : s.markers.get? idx = some m) :
    update_selected_marker_time dur t s = usmtChecked dur t s idx m := by
  unfold update_selected_marker_time
  simp only [h1, h2]

theorem dnm_eq_of_empty {pos : ℚ} {s : MMState} (h : s.markers.isEmpty) :
    delete_nearest_marker pos s = (s, .nothingToDelete) := by
  unfold delete_nearest_marker
  rw [if_pos h]

theorem dnm_eq_of_none {pos : ℚ} {s : MMState} (h : ¬ s.markers.isEmpty = true)
    (h2 : findNearest s.markers pos = none) :
    delete_nearest_marker pos s = (s, .nothingToDelete) := by
  unfold delete_nearest_marker
  rw [if_neg h]
  simp only [h2]

theorem dnm_eq_of_some {pos : ℚ} {s : MMState} {idx : Nat} {m : Marker}
    (h : ¬ s.markers.isEmpty = true)
    (h2 : findNearest s.markers pos = some (idx, m)) :
    delete_nearest_marker pos s = dnmFound s idx m := by
  unfold delete_nearest_marker
  rw [if_neg h]
  simp only [h2]

/-! ### C4 — undo logging (corrected) -/

/-- C4 counterexample: the button path `add_marker` succeeds — the marker
list changes — yet no record is appended to the undo log, contradicting
"every mutating marker operation that succeeds appends a descriptor of its
inverse to the undo log". -/
theorem C4_add_button_logs_nothing :
    (add_marker 500 5 (initState 500)).2 = .success ∧
    (add_marker 500 5 (initState 500)).1.markers ≠ (initState 500).markers ∧
    (add_marker 500 5 (initState 500)).1.undo_stack = [] := by
  refine ⟨?_, ?_, ?_⟩ <;>
    (norm_num [add_marker, initState, tooCloseAdd, insertAndRenumber,
      renumberUserMarkers, sortByTime, insertByTime, renameFrom, isFixed,
      clampNearZero, List.filter, List.findIdx, List.findIdx.go, abs]
     ; all_goals decide)

/-- C4 (amended): every mutating marker operation except the button-driven
`add_marker` — which never touches the undo log — appends a descriptor of
its inverse to the undo log (truncated to the 50 most recent records, redo
log cleared) before returning success, and any operation rejected by
validation leaves the state, in particular the marker list and the undo
log, entirely unchanged. -/
theorem C4_inverse_logging (dur t pos : ℚ) (sel : List Nat) (s : MMState) :
    ((add_marker dur t s).1.undo_stack = s.undo_stack ∧
     (add_marker dur t s).1.redo_stack = s.redo_stack ∧
     ((add_marker dur t s).2 ≠ .success → (add_marker dur t s).1 = s)) ∧
    (((add_marker_at_time dur t s).2 = .success →
        ∃ i m, (add_marker_at_time dur t s).1.undo_stack =
            (Operation.add_marker i m :: s.undo_stack).take 50 ∧
          (add_marker_at_time dur t s).1.redo_stack = []) ∧
     ((add_marker_at_time dur t s).2 ≠ .success →
        (add_marker_at_time dur t s).1 = s)) ∧
    (((update_selected_marker_time dur t s).2 = .success →
        ∃ i f g, (update_selected_marker_time dur t s).1.undo_stack =
            (Operation.move_marker i f g :: s.undo_stack).take 50 ∧
          (update_selected_marker_time dur t s).1.redo_stack = []) ∧
     ((update_selected_marker_time dur t s).2 ≠ .success →
        (update_selected_marker_time dur t s).1 = s)) ∧
    (((delete_nearest_marker pos s).2 = .success →
        ∃ i m, (delete_nearest_marker pos s).1.undo_stack =
            (Operation.delete_marker i m :: s.undo_stack).take 50 ∧
          (delete_nearest_marker pos s).1.redo_stack = []) ∧
     ((delete_nearest_marker pos s).2 ≠ .success →
        (delete_nearest_marker pos s).1 = s)) ∧
    (((delete_selected_marker sel s).2 = .success →
        ∃ data, (delete_selected_marker sel s).1.undo_stack =
            (Operation.delete_markers data :: s.undo_stack).take 50 ∧
          (delete_selected_marker sel s).1.redo_stack = []) ∧
     ((delete_selected_marker sel s).2 ≠ .success →
        (delete_selected_marker sel s).1 = s)) ∧
    (((delete_all_markers s).2 = .success →
        (delete_all_markers s).1.undo_stack =
          (Operation.delete_all_markers s.markers :: s.undo_stack).take 50 ∧
        (delete_all_markers s).1.redo_stack = []) ∧
     ((delete_all_markers s).2 ≠ .success → (delete_all_markers s).1 = s)) := by
  refine ⟨?_, ?_, ?_, ?_, ?_, ?_⟩
  · unfold add_marker
    split_ifs
    · exact ⟨rfl, rfl, fun _ => rfl⟩
    · exact ⟨rfl, rfl, fun _ => rfl⟩
    · exact ⟨rfl, rfl, fun _ => rfl⟩
    · exact ⟨rfl, rfl, fun h => absurd rfl h⟩
  · unfold add_marker_at_time
    split_ifs
    · exact ⟨nofun, fun _ => rfl⟩
    · exact ⟨nofun, fun _ => rfl⟩
    · exact ⟨nofun, fun _ => rfl⟩
    · exact ⟨fun _ => ⟨_, _, rfl, rfl⟩, fun h => absurd rfl h⟩
  · cases hsel : s.selected_marker_index with
    | none =>
        rw [usmt_eq_of_none hsel]
        exact ⟨nofun, fun _ => rfl⟩
    | some idx =>
        cases hget : s.markers.get? idx with
        | none =>
            rw [usmt_eq_of_get_none hsel hget]
            exact ⟨nofun, fun _ => rfl⟩
        | some m =>
            rw [usmt_eq_of_get_some hsel hget]
            unfold usmtChecked
            split_ifs
            · exact ⟨nofun, fun _ => rfl⟩
            · exact ⟨nofun, fun _ => rfl⟩
            · exact ⟨fun _ => ⟨idx, m.time, _, rfl, rfl⟩, fun h => absurd rfl h⟩
            · exact ⟨fun _ => ⟨idx, m.time, _, rfl, rfl⟩, fun h => absurd rfl h⟩
  · by_cases h1 : s.markers.isEmpty
    · rw [dnm_eq_of_empty h1]
      exact ⟨nofun, fun _ => rfl⟩
    · cases hfn : findNearest s.markers pos with
      | none =>
          rw [dnm_eq_of_none h1 hfn]
          exact ⟨nofun, fun _ => rfl⟩
      | some q =>
          obtain ⟨idx, m⟩ := q
          rw [dnm_eq_of_some h1 hfn]
          unfold dnmFound
          split_ifs with h2
          · exact ⟨nofun, fun _ => rfl⟩
          · exact ⟨fun _ => ⟨idx, m, rfl, rfl⟩, fun h => absurd rfl h⟩
  · unfold delete_selected_marker
    dsimp only
    split_ifs with h1 h2
    · exact ⟨nofun, fun _ => rfl⟩
    · exact ⟨nofun, fun _ => rfl⟩
    · exact ⟨fun _ => ⟨_, rfl, rfl⟩, fun h => absurd rfl h⟩
  · unfold delete_all_markers
    split_ifs with h1
    · exact ⟨nofun, fun _ => rfl⟩
    · exact ⟨fun _ => ⟨rfl, rfl⟩, fun h => absurd rfl h⟩

theorem C4_inverse_logging_witness :
    ∃ i m, (add_marker_at_time 500 5 (initState 500)).1.undo_stack =
        (Operation.add_marker i m :: (initState 500).undo_stack).take 50 ∧
      (add_marker_at_time 500 5 (initState 500)).1.redo_stack = [] :=
  (C4_inverse_logging 500 5 0 [] (initState 500)).2.1.1 (by
    norm_num [add_marker_at_time, initState, tooCloseAdd, insertAndRenumber,
      renumberUserMarkers, sortByTime, insertByTime, renameFrom, isFixed,
      clampNearZero, pushToUndoStack, List.filter, List.findIdx,
      List.findIdx.go, abs])

/-! ### C6 — capacity (confirmed) -/

/-- C6: when 100 markers already exist excluding the two fixed markers, the
next add-marker call (either path) is rejected — reported as the
maximum-markers validation failure — and the whole state, in particular the
marker list, is unchanged.  (The code compares `len(self.markers)`, fixed
markers included, against `max_markers = 100`, so 100 non-fixed markers put
the total well past the cap.) -/
theorem C6_capacity_rejection (dur t : ℚ) (s : MMState)
    (h : (s.markers.filter (fun m => !(isFixed m))).length = 100) :
    (add_marker dur t s).1 = s ∧
    (add_marker dur t s).2 = .maxMarkersReached ∧
    (add_marker_at_time dur t s).1 = s ∧
    (add_marker_at_time dur t s).2 = .maxMarkersReached := by
  have hlen : s.markers.length ≥ 100 := by
    have := List.length_filter_le (fun m => !(isFixed m)) s.markers
    omega
  unfold add_marker add_marker_at_time
  rw [if_pos hlen, if_pos hlen]
  exact ⟨rfl, rfl, rfl, rfl⟩

/-- A state holding exactly 100 user markers besides the fixed pair. -/
def capState : MMState :=
  { markers := List.replicate 100 (Marker.mk 7 "U" "" "") ++
      [Marker.mk 0 "Marker0" "" "", Marker.mk 500 "Marker500" "" ""],
    undo_stack := [], redo_stack := [], selected_marker_index := none }

theorem C6_capacity_rejection_witness :
    (capState.markers.filter (fun m => !(isFixed m))).length = 100 ∧
    (add_marker_at_time 500 250 capState).1 = capState ∧
    (add_marker_at_time 500 250 capState).2 = .maxMarkersReached := by
  have h : (capState.markers.filter (fun m => !(isFixed m))).length = 100 := by decide
  exact ⟨h, (C6_capacity_rejection 500 250 capState h).2.2.1,
    (C6_capacity_rejection 500 250 capState h).2.2.2⟩

/-! ### C9 — the near-zero clamp (corrected) -/

/-- C9 counterexample: a requested time of −5 (entry fields parse negative
numbers) is accepted by `add_marker_at_time` and the resulting non-fixed
marker `Marker1` has time −5 < 0.001, so "the minimum non-fixed marker time
is 0.001" fails. -/
theorem C9_negative_time_accepted :
    (add_marker_at_time 500 (-5) (initState 500)).2 = .success ∧
    (add_marker_at_time 500 (-5) (initState 500)).1.markers =
      [Marker.mk (-5) "Marker1" "" "", Marker.mk 0 "Marker0" "" "",
       Marker.mk 500 "Marker500" "" ""] ∧
    isFixed (Marker.mk (-5) "Marker1" "" "") = false ∧
    (-5 : ℚ) < 1/1000 := by
  refine ⟨?_, ?_, by decide, by norm_num⟩ <;>
    (norm_num [add_marker_at_time, initState, tooCloseAdd, insertAndRenumber,
      renumberUserMarkers, sortByTime, insertByTime, renameFrom, isFixed,
      clampNearZero, pushToUndoStack, List.filter, List.findIdx,
      List.findIdx.go, abs]
     ; all_goals decide)

/-- C9 (amended): in both marker-add paths a requested time within 0.001 of
0.0 is silently clamped to 0.001 rather than rejected, so no added marker
ever has time exactly 0.000, and for non-negative requested times the added
marker's time is at least 0.001; a negative requested time at or below
−0.001, however, is accepted unchanged. -/
theorem C9_near_zero_clamp (dur t : ℚ) (s : MMState) :
    (|t| < 1/1000 → clampNearZero t = 1/1000) ∧
    clampNearZero t ≠ 0 ∧
    (0 ≤ t → 1/1000 ≤ clampNearZero t) ∧
    (t ≤ -(1/1000) → clampNearZero t = t) ∧
    (¬ s.markers.length ≥ 100 → ¬ (dur > 0 ∧ t > dur - 1/2) →
     tooCloseAdd s.markers t = false →
      (add_marker dur t s).2 = .success ∧
      ((add_marker dur t s).1.markers.map Marker.time).Perm
        (clampNearZero t :: s.markers.map Marker.time) ∧
      (add_marker_at_time dur t s).2 = .success ∧
      ((add_marker_at_time dur t s).1.markers.map Marker.time).Perm
        (clampNearZero t :: s.markers.map Marker.time)) := by
  refine ⟨?_, ?_, ?_, ?_, ?_⟩
  · intro h
    unfold clampNearZero
    rw [if_pos h]
  · unfold clampNearZero
    split_ifs with h
    · norm_num
    · intro h0
      rw [h0] at h
      simp at h
  · intro ht
    unfold clampNearZero
    split_ifs with h
    · exact le_refl _
    · rw [not_lt, abs_of_nonneg ht] at h
      exact h
  · intro ht
    unfold clampNearZero
    rw [if_neg]
    rw [not_lt, abs_of_nonpos (le_trans ht (by norm_num))]
    linarith
  · intro hcap hdur htc
    unfold add_marker add_marker_at_time
    rw [if_neg hcap, if_neg hdur, if_neg (by simp [htc]),
      if_neg hcap, if_neg hdur, if_neg (by simp [htc])]
    refine ⟨rfl, ?_, rfl, ?_⟩ <;>
      exact insertAndRenumber_map_time_perm s.markers ⟨clampNearZero t, "TempMarker", "", ""⟩

/-! ### C5 — marker-list invariant

`gapT` is the amended spacing bound: the validation checks reject a
requested time within 1.0s of a non-fixed marker, but the near-zero clamp
can move the accepted time by up to 0.001 afterwards, so the provable
pairwise bound is 0.999. -/

def gapT (x y : ℚ) : Prop := 999/1000 ≤ |x - y|

theorem gapT_symm : ∀ {x y : ℚ}, gapT x y → gapT y x := by
  intro x y h
  unfold gapT at h ⊢
  rwa [abs_sub_comm]

/-- The times of the non-fixed markers, in list order. -/
def nonFixedTimes (ms : List Marker) : List ℚ :=
  (ms.filter (fun m => !(isFixed m))).map Marker.time

def GapOK (ms : List Marker) : Prop := (nonFixedTimes ms).Pairwise gapT

def HasName (ms : List Marker) (n : String) : Prop := n ∈ ms.map Marker.name

/-- The invariant of claim C5 (amended): both fixed markers present by name,
and all non-fixed marker times pairwise at least 0.999 apart. -/
def MarkerInv (ms : List Marker) : Prop :=
  HasName ms "Marker0" ∧ HasName ms "Marker500" ∧ GapOK ms

theorem perm_markerInv {ms ms' : List Marker} (hp : ms.Perm ms') :
    MarkerInv ms → MarkerInv ms' := by
  rintro ⟨h0, h5, hg⟩
  refine ⟨(hp.map Marker.name).mem_iff.1 h0, (hp.map Marker.name).mem_iff.1 h5, ?_⟩
  exact (((hp.filter (fun m => !(isFixed m))).map Marker.time).pairwise_iff
    (fun h => gapT_symm h)).1 hg

theorem perm_cons_eraseIdx {α : Type} (l : List α) :
    ∀ (i : Nat) (a : α), l.get? i = some a → l.Perm (a :: l.eraseIdx i) := by
  induction l with
  | nil => intro i a h; simp at h
  | cons x xs ih =>
      intro i a h
      cases i with
      | zero =>
          rw [List.get?_cons_zero] at h
          cases h
          simp [List.eraseIdx]
      | succ i =>
          rw [List.get?_cons_succ] at h
          have := (ih i a h).cons x
          simp only [List.eraseIdx]
          exact this.trans (List.Perm.swap a x _)

theorem set_perm_cons_eraseIdx {α : Type} (l : List α) :
    ∀ (i : Nat) (a b : α), l.get? i = some a → (l.set i b).Perm (b :: l.eraseIdx i) := by
  induction l with
  | nil => intro i a b h; simp at h
  | cons x xs ih =>
      intro i a b h
      cases i with
      | zero => simp [List.eraseIdx]
      | succ i =>
          rw [List.get?_cons_succ] at h
          have := (ih i a b h).cons x
          simp only [List.set, List.eraseIdx]
          exact this.trans (List.Perm.swap b x _)

theorem filter_nonfixed_of_fixedPart (ms : List Marker) :
    (ms.filter (fun m => isFixed m)).filter (fun m => !(isFixed m)) = [] := by
  rw [List.filter_filter]
  apply List.filter_eq_nil_iff.2
  intro m _
  cases h : isFixed m <;> simp [h]

theorem isFixed_of_name0 {m : Marker} (h : m.name = "Marker0") :
    isFixed m = true := by simp [isFixed, h]

theorem isFixed_of_name500 {m : Marker} (h : m.name = "Marker500") :
    isFixed m = true := by simp [isFixed, h]

theorem hasName_append_left {ms ms' : List Marker} {n : String}
    (h : HasName ms n) : HasName (ms ++ ms') n := by
  unfold HasName at h ⊢
  rw [List.map_append]
  exact List.mem_append_left _ h

theorem renumber_markerInv {ms : List Marker} (h : MarkerInv ms) :
    MarkerInv (renumberUserMarkers ms) := by
  obtain ⟨h0, h5, hg⟩ := h
  unfold renumberUserMarkers
  apply perm_markerInv (sortByTime_perm _).symm
  have hfixmem : ∀ n : String, n ∈ ms.map Marker.name →
      (∀ m : Marker, m.name = n → isFixed m = true) →
      HasName (renameFrom 0 (sortByTime (ms.filter (fun m => !(isFixed m)))) ++
        ms.filter (fun m => isFixed m)) n := by
    intro n hn hfix
    obtain ⟨m, hm, hname⟩ := List.mem_map.1 hn
    unfold HasName
    rw [List.map_append]
    refine List.mem_append_right _ ?_
    exact List.mem_map.2 ⟨m, List.mem_filter.2 ⟨hm, hfix m hname⟩, hname⟩
  refine ⟨hfixmem _ h0 (fun m hm => isFixed_of_name0 hm),
    hfixmem _ h5 (fun m hm => isFixed_of_name500 hm), ?_⟩
  unfold GapOK nonFixedTimes
  rw [List.filter_append, filter_nonfixed_of_fixedPart, List.append_nil]
  have hsub : ((renameFrom 0 (sortByTime (ms.filter (fun m => !(isFixed m))))).filter
      (fun m => !(isFixed m))).map Marker.time |>.Sublist
      ((renameFrom 0 (sortByTime (ms.filter (fun m => !(isFixed m))))).map Marker.time) :=
    (List.filter_sublist _).map _
  refine List.Pairwise.sublist hsub ?_
  rw [renameFrom_map_time]
  exact (((sortByTime_perm _).map Marker.time).pairwise_iff (fun h => gapT_symm h)).2 hg

/-- For a non-negative request the near-zero clamp moves the time by at most
0.001. -/
theorem clampNearZero_shift {t : ℚ} (ht : 0 ≤ t) :
    |clampNearZero t - t| ≤ 1/1000 := by
  unfold clampNearZero
  split_ifs with h
  · rw [abs_of_nonneg ht] at h
    rw [abs_of_nonneg (by linarith)]
    linarith
  · simp

/-- The 1-second validation plus the clamp give the 0.999 gap between the
new marker and every non-fixed existing one. -/
theorem gapT_of_check {x t c : ℚ} (hcheck : 1 ≤ |x - t|) (hshift : |c - t| ≤ 1/1000) :
    gapT x c := by
  unfold gapT
  have htri : |x - t| ≤ |x - c| + |c - t| := abs_sub_le x c t
  linarith

theorem tooCloseAdd_eq_false_iff {ms : List Marker} {t : ℚ} :
    tooCloseAdd ms t = false ↔
      ∀ m ∈ ms, isFixed m = false → 1 ≤ |m.time - t| := by
  unfold tooCloseAdd
  rw [List.any_eq_false]
  constructor
  · intro h m hm hf
    have := h m hm
    simp [hf] at this
    linarith
  · intro h m hm
    cases hf : isFixed m with
    | false =>
        have := h m hm hf
        simp [hf]
        linarith
    | true => simp [hf]

theorem nonFixedTimes_append (ms ms' : List Marker) :
    nonFixedTimes (ms ++ ms') = nonFixedTimes ms ++ nonFixedTimes ms' := by
  unfold nonFixedTimes
  rw [List.filter_append, List.map_append]

/-- Invariant preservation for the shared insertion step of both add paths. -/
theorem insertAndRenumber_markerInv {ms : List Marker} {t : ℚ} (ht : 0 ≤ t)
    (hclose : tooCloseAdd ms t = false) (hinv : MarkerInv ms) :
    MarkerInv (insertAndRenumber ms ⟨clampNearZero t, "TempMarker", "", ""⟩).1 := by
  have hfst : (insertAndRenumber ms ⟨clampNearZero t, "TempMarker", "", ""⟩).1 =
      renumberUserMarkers (sortByTime (ms ++ [⟨clampNearZero t, "TempMarker", "", ""⟩])) := rfl
  rw [hfst]
  apply renumber_markerInv
  apply perm_markerInv (sortByTime_perm _).symm
  obtain ⟨h0, h5, hg⟩ := hinv
  refine ⟨hasName_append_left h0, hasName_append_left h5, ?_⟩
  unfold GapOK
  rw [nonFixedTimes_append]
  have hnewTimes : nonFixedTimes [⟨clampNearZero t, "TempMarker", "", ""⟩] =
      [clampNearZero t] := by
    unfold nonFixedTimes
    simp [isFixed]
  rw [hnewTimes]
  rw [List.pairwise_append]
  refine ⟨hg, List.pairwise_singleton _ _, ?_⟩
  intro x hx c hc
  rw [List.mem_singleton] at hc
  subst hc
  unfold nonFixedTimes at hx
  obtain ⟨m, hm, hmx⟩ := List.mem_map.1 hx
  obtain ⟨hmem, hnf⟩ := List.mem_filter.1 hm
  have hnf' : isFixed m = false := by
    cases hfix : isFixed m
    · rfl
    · rw [hfix] at hnf; simp at hnf
  have := tooCloseAdd_eq_false_iff.1 hclose m hmem hnf'
  subst hmx
  exact gapT_of_check this (clampNearZero_shift ht)

/-- C5 preservation: `add_marker` (button path). -/
theorem add_marker_markerInv {dur t : ℚ} {s : MMState} (ht : 0 ≤ t)
    (h : MarkerInv s.markers) : MarkerInv (add_marker dur t s).1.markers := by
  unfold add_marker
  split_ifs with h1 h2 h3
  · exact h
  · exact h
  · exact h
  · exact insertAndRenumber_markerInv ht (by
      cases hb : tooCloseAdd s.markers t
      · rfl
      · exact absurd hb h3) h

/-- C5 preservation: `add_marker_at_time`. -/
theorem add_marker_at_time_markerInv {dur t : ℚ} {s : MMState} (ht : 0 ≤ t)
    (h : MarkerInv s.markers) : MarkerInv (add_marker_at_time dur t s).1.markers := by
  unfold add_marker_at_time
  split_ifs with h1 h2 h3
  · exact h
  · exact h
  · exact h
  · exact insertAndRenumber_markerInv ht (by
      cases hb : tooCloseAdd s.markers t
      · rfl
      · exact absurd hb h3) h

theorem set_same {α : Type} (l : List α) :
    ∀ (i : Nat) (a : α), l.get? i = some a → l.set i a = l := by
  induction l with
  | nil => intro i a h; simp at h
  | cons x xs ih =>
      intro i a h
      cases i with
      | zero =>
          rw [List.get?_cons_zero] at h
          cases h
          rfl
      | succ i =>
          rw [List.get?_cons_succ] at h
          simp [List.set, ih i a h]

theorem map_name_set_time {ms : List Marker} :
    ∀ {idx : Nat} {sel : Marker} {newT : ℚ}, ms.get? idx = some sel →
      (ms.set idx { sel with time := newT }).map Marker.name = ms.map Marker.name := by
  intro idx sel newT hget
  rw [List.map_set]
  exact set_same _ idx _ (by
    rw [List.get?_map, hget]
    rfl)

theorem filter_nonfixed_set_fixed {ms : List Marker} :
    ∀ {idx : Nat} {sel : Marker} {newT : ℚ}, ms.get? idx = some sel →
      isFixed sel = true →
      (ms.set idx { sel with time := newT }).filter (fun m => !(isFixed m)) =
        ms.filter (fun m => !(isFixed m)) := by
  induction ms with
  | nil => intro idx sel newT h _; simp at h
  | cons x xs ih =>
      intro idx sel newT hget hfix
      cases idx with
      | zero =>
          rw [List.get?_cons_zero] at hget
          cases hget
          have hfix' : isFixed { x with time := newT } = true := hfix
          simp [List.set, List.filter_cons, hfix, hfix']
      | succ i =>
          rw [List.get?_cons_succ] at hget
          simp only [List.set, List.filter_cons]
          rw [ih hget hfix]

/-- Invariant preservation for the successful move step. -/
theorem move_set_markerInv {s : MMState} {idx : Nat} {sel : Marker} {newT t : ℚ}
    (hget : s.markers.get? idx = some sel)
    (hshift : |newT - t| ≤ 1/1000)
    (hcheck : (s.markers.any (fun m =>
      !(decide (m = sel)) && !(isFixed m) && decide (|m.time - t| < 1))) = false)
    (h : MarkerInv s.markers) :
    MarkerInv (sortByTime (s.markers.set idx { sel with time := newT })) := by
  apply perm_markerInv (sortByTime_perm _).symm
  obtain ⟨h0, h5, hg⟩ := h
  have hname0 : HasName (s.markers.set idx { sel with time := newT }) "Marker0" := by
    unfold HasName at h0 ⊢
    rw [map_name_set_time hget]
    exact h0
  have hname5 : HasName (s.markers.set idx { sel with time := newT }) "Marker500" := by
    unfold HasName at h5 ⊢
    rw [map_name_set_time hget]
    exact h5
  refine ⟨hname0, hname5, ?_⟩
  cases hfix : isFixed sel with
  | true =>
      unfold GapOK nonFixedTimes
      rw [filter_nonfixed_set_fixed hget hfix]
      exact hg
  | false =>
      have hupd : isFixed { sel with time := newT } = false := hfix
      have hperm1 : (s.markers.set idx { sel with time := newT }).Perm
          ({ sel with time := newT } :: s.markers.eraseIdx idx) :=
        set_perm_cons_eraseIdx s.markers idx sel _ hget
      have hperm2 : s.markers.Perm (sel :: s.markers.eraseIdx idx) :=
        perm_cons_eraseIdx s.markers idx sel hget
      unfold GapOK nonFixedTimes
      have hfcons1 : (({ sel with time := newT } : Marker) :: s.markers.eraseIdx idx).filter
          (fun m => !(isFixed m)) = { sel with time := newT } ::
            (s.markers.eraseIdx idx).filter (fun m => !(isFixed m)) := by
        simp [List.filter_cons, hupd]
      have hfcons2 : (sel :: s.markers.eraseIdx idx).filter (fun m => !(isFixed m)) =
          sel :: (s.markers.eraseIdx idx).filter (fun m => !(isFixed m)) := by
        simp [List.filter_cons, hfix]
      refine (((hperm1.filter (fun m => !(isFixed m))).map Marker.time).pairwise_iff
        (fun hh => gapT_symm hh)).2 ?_
      have hold := (((hperm2.filter (fun m => !(isFixed m))).map Marker.time).pairwise_iff
        (fun hh => gapT_symm hh)).1 hg
      rw [hfcons2, List.map_cons, List.pairwise_cons] at hold
      obtain ⟨hcross, htail⟩ := hold
      rw [hfcons1, List.map_cons, List.pairwise_cons]
      refine ⟨?_, htail⟩
      intro y hy
      obtain ⟨m, hm, hmy⟩ := List.mem_map.1 hy
      obtain ⟨hmem, hnf⟩ := List.mem_filter.1 hm
      have hnf' : isFixed m = false := by
        cases hb : isFixed m
        · rfl
        · rw [hb] at hnf; simp at hnf
      have hsel_gap := hcross y hy
      have hmne : ¬ (m = sel) := by
        intro hcon
        subst hcon
        subst hmy
        unfold gapT at hsel_gap
        simp at hsel_gap
        linarith
      have hmem' : m ∈ s.markers :=
        (List.eraseIdx_sublist s.markers idx).subset hmem
      have hfar : 1 ≤ |m.time - t| := by
        have := List.any_eq_false.1 hcheck m hmem'
        simp [hmne, hnf'] at this
        linarith
      subst hmy
      exact gapT_symm (gapT_of_check hfar hshift)

/-- C5 preservation: `update_selected_marker_time`. -/
theorem update_selected_markerInv {dur t : ℚ} {s : MMState} (ht : 0 ≤ t)
    (h : MarkerInv s.markers) :
    MarkerInv (update_selected_marker_time dur t s).1.markers := by
  cases hsel : s.selected_marker_index with
  | none => rw [usmt_eq_of_none hsel]; exact h
  | some idx =>
      cases hget : s.markers.get? idx with
      | none => rw [usmt_eq_of_get_none hsel hget]; exact h
      | some sel =>
          rw [usmt_eq_of_get_some hsel hget]
          unfold usmtChecked
          split_ifs with h1 h2 h3
          · exact h
          · exact h
          · refine @move_set_markerInv s idx sel (1/1000) t hget ?_ ?_ h
            · rw [abs_of_nonneg (by linarith)]
              linarith
            · cases hb : s.markers.any (fun m =>
                !(decide (m = sel)) && !(isFixed m) && decide (|m.time - t| < 1))
              · rfl
              · exact absurd hb h2
          · refine @move_set_markerInv s idx sel t t hget ?_ ?_ h
            · simp
            · cases hb : s.markers.any (fun m =>
                !(decide (m = sel)) && !(isFixed m) && decide (|m.time - t| < 1))
              · rfl
              · exact absurd hb h2

theorem name_ne_of_nonfixed {m : Marker} (h : isFixed m = false) :
    m.name ≠ "Marker0" ∧ m.name ≠ "Marker500" := by
  unfold isFixed at h
  simp at h
  exact h

theorem hasName_eraseIdx {ms : List Marker} {idx : Nat} {m : Marker} {n : String}
    (hget : ms.get? idx = some m) (hne : m.name ≠ n) (h : HasName ms n) :
    HasName (ms.eraseIdx idx) n := by
  have hperm := perm_cons_eraseIdx ms idx m hget
  unfold HasName at h ⊢
  have hmem := (hperm.map Marker.name).mem_iff.1 h
  rw [List.map_cons, List.mem_cons] at hmem
  rcases hmem with hmem | hmem
  · exact absurd hmem.symm hne
  · exact hmem

theorem gapOK_sublist {ms ms' : List Marker} (hsub : ms'.Sublist ms)
    (h : GapOK ms) : GapOK ms' := by
  unfold GapOK nonFixedTimes at h ⊢
  exact List.Pairwise.sublist (((hsub.filter _).map _)) h

/-- C5 preservation: `delete_all_markers`. -/
theorem delete_all_markerInv {s : MMState} (h : MarkerInv s.markers) :
    MarkerInv (delete_all_markers s).1.markers := by
  unfold delete_all_markers
  split_ifs with h1
  · exact h
  · obtain ⟨h0, h5, _⟩ := h
    refine ⟨?_, ?_, ?_⟩
    · obtain ⟨m, hm, hname⟩ := List.mem_map.1 h0
      exact List.mem_map.2 ⟨m, List.mem_filter.2 ⟨hm, isFixed_of_name0 hname⟩, hname⟩
    · obtain ⟨m, hm, hname⟩ := List.mem_map.1 h5
      exact List.mem_map.2 ⟨m, List.mem_filter.2 ⟨hm, isFixed_of_name500 hname⟩, hname⟩
    · unfold GapOK nonFixedTimes
      rw [filter_nonfixed_of_fixedPart]
      exact List.Pairwise.nil

/-- The accumulator of the nearest-marker fold always points back into the
marker list. -/
theorem foldl_nearest_spec (ms : List Marker) (pos : ℚ) :
    ∀ (zs : List (Nat × Marker)) (acc : Option (Nat × Marker × ℚ)),
      (∀ p ∈ zs, ms.get? p.1 = some p.2) →
      (∀ i mm d, acc = some (i, mm, d) → ms.get? i = some mm) →
      ∀ i mm d,
        zs.foldl (fun acc p =>
          match acc with
          | none => some (p.1, p.2, |p.2.time - pos|)
          | some (bi, bm, bd) =>
              if |p.2.time - pos| < bd then some (p.1, p.2, |p.2.time - pos|)
              else some (bi, bm, bd)) acc = some (i, mm, d) →
        ms.get? i = some mm := by
  intro zs
  induction zs with
  | nil => intro acc _ hacc i mm d hfold; exact hacc i mm d hfold
  | cons p rest ih =>
      intro acc hz hacc i mm d hfold
      rw [List.foldl_cons] at hfold
      refine ih _ (fun q hq => hz q (List.mem_cons_of_mem _ hq)) ?_ i mm d hfold
      intro i2 mm2 d2 hacc2
      cases acc with
      | none =>
          dsimp only at hacc2
          cases hacc2
          exact hz p (List.mem_cons_self _ _)
      | some b =>
          obtain ⟨bi, bm, bd⟩ := b
          dsimp only at hacc2
          split at hacc2
          · cases hacc2
            exact hz p (List.mem_cons_self _ _)
          · cases hacc2
            exact hacc _ _ _ rfl

theorem mem_enum_get? {ms : List Marker} {p : Nat × Marker} (hp : p ∈ ms.enum) :
    ms.get? p.1 = some p.2 := by
  obtain ⟨i, m⟩ := p
  obtain ⟨hlt, heq⟩ := List.mem_enum hp
  rw [List.get?_eq_getElem?, List.getElem?_eq_getElem hlt, heq]

theorem findNearest_spec {ms : List Marker} {pos : ℚ} {idx : Nat} {m : Marker}
    (h : findNearest ms pos = some (idx, m)) : ms.get? idx = some m := by
  unfold findNearest at h
  cases hfold : (ms.enum.foldl (fun acc p =>
      match acc with
      | none => some (p.1, p.2, |p.2.time - pos|)
      | some (bi, bm, bd) =>
          if |p.2.time - pos| < bd then some (p.1, p.2, |p.2.time - pos|)
          else some (bi, bm, bd)) none) with
  | none => rw [hfold] at h; simp at h
  | some q =>
      obtain ⟨qi, qm, qd⟩ := q
      rw [hfold] at h
      simp at h
      obtain ⟨hi, hm⟩ := h
      have := foldl_nearest_spec ms pos ms.enum none
        (fun p hp => mem_enum_get? hp) (fun _ _ _ hc => by cases hc) qi qm qd hfold
      rw [← hi, ← hm]
      exact this

/-- C5 preservation: `delete_nearest_marker`. -/
theorem delete_nearest_markerInv {pos : ℚ} {s : MMState}
    (h : MarkerInv s.markers) :
    MarkerInv (delete_nearest_marker pos s).1.markers := by
  by_cases h1 : s.markers.isEmpty
  · rw [dnm_eq_of_empty h1]; exact h
  · cases hfn : findNearest s.markers pos with
    | none => rw [dnm_eq_of_none h1 hfn]; exact h
    | some q =>
        obtain ⟨idx, m⟩ := q
        rw [dnm_eq_of_some h1 hfn]
        unfold dnmFound
        split_ifs with h2
        · exact h
        · have hget := findNearest_spec hfn
          have hnf : isFixed m = false := by
            cases hb : isFixed m
            · rfl
            · exact absurd hb h2
          obtain ⟨hne0, hne5⟩ := name_ne_of_nonfixed hnf
          obtain ⟨h0, h5, hg⟩ := h
          exact ⟨hasName_eraseIdx hget hne0 h0, hasName_eraseIdx hget hne5 h5,
            gapOK_sublist (List.eraseIdx_sublist _ _) hg⟩

theorem mem_collectToDelete {ms : List Marker} :
    ∀ {sel : List Nat} {p : Nat × Marker}, p ∈ collectToDelete ms sel →
      ms.get? p.1 = some p.2 ∧ isFixed p.2 = false := by
  intro sel
  induction sel with
  | nil => intro p hp; cases hp
  | cons i rest ih =>
      intro p hp
      unfold collectToDelete at hp
      cases hget : ms.get? i with
      | none =>
          rw [hget] at hp
          exact ih hp
      | some m =>
          rw [hget] at hp
          dsimp only at hp
          split at hp
          · exact ih hp
          · next hfix =>
              rcases List.mem_cons.1 hp with hp | hp
              · subst hp
                refine ⟨hget, ?_⟩
                cases hb : isFixed m
                · rfl
                · exact absurd hb hfix
              · exact ih hp

theorem insDesc_perm (p : Nat × Marker) (l : List (Nat × Marker)) :
    (insDesc p l).Perm (p :: l) := by
  induction l with
  | nil => simp [insDesc]
  | cons x xs ih =>
      simp only [insDesc]
      split
      · exact ((ih.cons x).trans (List.Perm.swap p x xs)).symm.symm
      · rfl

theorem sortDescByIdx_perm (l : List (Nat × Marker)) :
    (sortDescByIdx l).Perm l := by
  induction l with
  | nil => rfl
  | cons x xs ih =>
      exact (insDesc_perm x (sortDescByIdx xs)).trans (ih.cons x)

/-- Descending-index order on deletion pairs. -/
def descIdx (a b : Nat × Marker) : Prop := b.1 ≤ a.1

instance : IsTrans (Nat × Marker) descIdx := ⟨fun _ _ _ h1 h2 => le_trans h2 h1⟩

theorem insDesc_chain {p : Nat × Marker} {l : List (Nat × Marker)}
    (h : l.Chain' descIdx) : (insDesc p l).Chain' descIdx := by
  induction l with
  | nil => simp [insDesc, List.chain'_singleton]
  | cons x xs ih =>
      simp only [insDesc]
      rcases List.chain'_cons'.1 h with ⟨hx, hxs⟩
      split
      · rename_i hgt
        refine List.chain'_cons'.2 ⟨?_, ih hxs⟩
        intro y hy
        cases xs with
        | nil =>
            simp [insDesc] at hy
            subst hy
            exact le_of_lt hgt
        | cons z zs =>
            simp only [insDesc] at hy
            split at hy
            · simp at hy; subst hy
              exact hx z rfl
            · simp at hy; subst hy
              exact le_of_lt hgt
      · rename_i hle
        push_neg at hle
        refine List.chain'_cons'.2 ⟨?_, h⟩
        intro y hy
        simp at hy; subst hy
        exact hle

theorem sortDescByIdx_chain (l : List (Nat × Marker)) :
    (sortDescByIdx l).Chain' descIdx := by
  induction l with
  | nil => simp [sortDescByIdx]
  | cons x xs ih => exact insDesc_chain ih

theorem collect_fst_sublist (ms : List Marker) :
    ∀ sel : List Nat, ((collectToDelete ms sel).map Prod.fst).Sublist sel := by
  intro sel
  induction sel with
  | nil => simp [collectToDelete]
  | cons i rest ih =>
      unfold collectToDelete
      cases hget : ms.get? i with
      | none => exact ih.cons i
      | some m =>
          dsimp only
          split
          · exact ih.cons i
          · exact ih.cons₂ i

theorem pairwise_strict_desc {l : List (Nat × Marker)} (hchain : l.Chain' descIdx)
    (hnd : (l.map Prod.fst).Nodup) : l.Pairwise (fun a b => b.1 < a.1) := by
  have hpw : l.Pairwise descIdx := List.chain'_iff_pairwise.1 hchain
  have hne : l.Pairwise (fun a b => a.1 ≠ b.1) := List.pairwise_map.1 hnd
  exact (hpw.and hne).imp (fun hab => lt_of_le_of_ne hab.1 (Ne.symm hab.2))

theorem get?_eraseIdx_of_lt {α : Type} (l : List α) (i j : Nat) (h : j < i) :
    (l.eraseIdx i).get? j = l.get? j := by
  rw [List.get?_eq_getElem?, List.get?_eq_getElem?, List.getElem?_eraseIdx, if_pos h]

theorem foldl_erase_markerInv :
    ∀ (ps : List (Nat × Marker)) (ms : List Marker),
      (∀ p ∈ ps, ms.get? p.1 = some p.2 ∧ isFixed p.2 = false) →
      ps.Pairwise (fun a b => b.1 < a.1) →
      MarkerInv ms → MarkerInv (ps.foldl (fun acc p => acc.eraseIdx p.1) ms) := by
  intro ps
  induction ps with
  | nil => intro ms _ _ h; exact h
  | cons p rest ih =>
      intro ms hcond hpw h
      rw [List.foldl_cons]
      obtain ⟨hget, hnf⟩ := hcond p (List.mem_cons_self _ _)
      obtain ⟨hne0, hne5⟩ := name_ne_of_nonfixed hnf
      rw [List.pairwise_cons] at hpw
      obtain ⟨hlt, hpw2⟩ := hpw
      refine ih (ms.eraseIdx p.1) ?_ hpw2 ?_
      · intro q hq
        obtain ⟨hgq, hnq⟩ := hcond q (List.mem_cons_of_mem _ hq)
        refine ⟨?_, hnq⟩
        rw [get?_eraseIdx_of_lt _ _ _ (hlt q hq)]
        exact hgq
      · obtain ⟨h0, h5, hg⟩ := h
        exact ⟨hasName_eraseIdx hget hne0 h0, hasName_eraseIdx hget hne5 h5,
          gapOK_sublist (List.eraseIdx_sublist _ _) hg⟩

/-- C5 preservation: `delete_selected_marker`, for a listbox selection
without duplicate indices (`curselection` returns unique indices). -/
theorem delete_selected_markerInv {sel : List Nat} {s : MMState}
    (hnd : sel.Nodup) (h : MarkerInv s.markers) :
    MarkerInv (delete_selected_marker sel s).1.markers := by
  unfold delete_selected_marker
  dsimp only
  split_ifs with h1 h2
  · exact h
  · exact h
  · apply renumber_markerInv
    apply foldl_erase_markerInv
    · intro p hp
      exact mem_collectToDelete ((sortDescByIdx_perm _).mem_iff.1 hp)
    · apply pairwise_strict_desc (sortDescByIdx_chain _)
      have hnodup_c : ((collectToDelete s.markers sel).map Prod.fst).Nodup :=
        (collect_fst_sublist s.markers sel).nodup hnd
      exact (((sortDescByIdx_perm _).map Prod.fst)).nodup_iff.2 hnodup_c
    · exact h

/-- The operation sequences of claim C5: any sequence of add, move and
delete operations (with selection changes in between) starting from the
freshly-loaded state, with the inputs the GUI can produce — non-negative
requested times (spin/entry fields and playback positions) and
duplicate-free listbox selections. -/
inductive Reachable (dur : ℚ) : MMState → Prop where
  | init : Reachable dur (initState dur)
  | addButton {s : MMState} (t : ℚ) (ht : 0 ≤ t) (hs : Reachable dur s) :
      Reachable dur (add_marker dur t s).1
  | addAtTime {s : MMState} (t : ℚ) (ht : 0 ≤ t) (hs : Reachable dur s) :
      Reachable dur (add_marker_at_time dur t s).1
  | select {s : MMState} (i : Nat) (hs : Reachable dur s) :
      Reachable dur (edit_marker_by_index i s)
  | move {s : MMState} (t : ℚ) (ht : 0 ≤ t) (hs : Reachable dur s) :
      Reachable dur (update_selected_marker_time dur t s).1
  | delNearest {s : MMState} (pos : ℚ) (hs : Reachable dur s) :
      Reachable dur (delete_nearest_marker pos s).1
  | delSelected {s : MMState} (sel : List Nat) (hnd : sel.Nodup)
      (hs : Reachable dur s) : Reachable dur (delete_selected_marker sel s).1
  | delAll {s : MMState} (hs : Reachable dur s) :
      Reachable dur (delete_all_markers s).1

/-- C5 (amended): after any sequence of add/move/delete operations with
non-negative requested times and duplicate-free selections, the two fixed
markers Marker0 and Marker500 are present with correct names, and the times
of any two distinct non-fixed markers differ by at least 0.999.  (The
original 1.0-second bound and the fixed-marker proximity clause fail on the
code: fixed markers are skipped by the validation, and the near-zero clamp
is applied after it.) -/
theorem C5_marker_invariant (dur : ℚ) (s : MMState) (h : Reachable dur s) :
    MarkerInv s.markers := by
  induction h with
  | init =>
      refine ⟨?_, ?_, ?_⟩
      · simp [initState, HasName]
      · simp [initState, HasName]
      · simp [initState, GapOK, nonFixedTimes, isFixed]
  | addButton t ht hs ih => exact add_marker_markerInv ht ih
  | addAtTime t ht hs ih => exact add_marker_at_time_markerInv ht ih
  | select i hs ih =>
      unfold edit_marker_by_index
      split_ifs <;> exact ih
  | move t ht hs ih => exact update_selected_markerInv ht ih
  | delNearest pos hs ih => exact delete_nearest_markerInv ih
  | delSelected sel hnd hs ih => exact delete_selected_markerInv hnd ih
  | delAll hs ih => exact delete_all_markerInv ih

theorem C5_marker_invariant_witness :
    MarkerInv (add_marker_at_time 500 5 (initState 500)).1.markers :=
  C5_marker_invariant 500 _ (Reachable.addAtTime 5 (by norm_num) Reachable.init)

/-- C5 counterexample: the single add operation `add_marker_at_time` at 0.5
from the fresh state succeeds, leaving the non-fixed `Marker1` at time 0.5
— within 1.0 second of the fixed `Marker0` at time 0 — because the
1-second validation explicitly skips the fixed markers.  This refutes the
claim's "...or of any fixed marker's time" clause. -/
theorem C5_fixed_proximity_violated :
    (add_marker_at_time 500 (1/2) (initState 500)).2 = .success ∧
    (add_marker_at_time 500 (1/2) (initState 500)).1.markers =
      [Marker.mk 0 "Marker0" "" "", Marker.mk (1/2) "Marker1" "" "",
       Marker.mk 500 "Marker500" "" ""] ∧
    isFixed (Marker.mk (1/2) "Marker1" "" "") = false ∧
    isFixed (Marker.mk 0 "Marker0" "" "") = true ∧
    |(1/2 : ℚ) - 0| < 1 := by
  refine ⟨?_, ?_, by decide, by decide,
      by rw [sub_zero, abs_of_nonneg (by norm_num : (0:ℚ) ≤ 1/2)]; norm_num⟩ <;>
    (norm_num [add_marker_at_time, initState, tooCloseAdd, insertAndRenumber,
      renumberUserMarkers, sortByTime, insertByTime, renameFrom, isFixed,
      clampNearZero, pushToUndoStack, List.filter, List.findIdx,
      List.findIdx.go, abs]
     ; all_goals decide)

end Mp3

namespace Mp3

theorem C9_near_zero_clamp_witness :
    ((0 : ℚ) ≤ 0 ∧ (1/1000 : ℚ) ≤ clampNearZero 0) ∧
    (add_marker_at_time 500 0 (initState 500)).2 = .success ∧
    ((add_marker_at_time 500 0 (initState 500)).1.markers.map Marker.time).Perm
      (clampNearZero 0 :: (initState 500).markers.map Marker.time) := by
  have h := C9_near_zero_clamp 500 0 (initState 500)
  have hmain := h.2.2.2.2 (by decide) (by norm_num) (by decide)
  exact ⟨⟨le_refl 0, h.2.2.1 (le_refl 0)⟩, hmain.2.2.1, hmain.2.2.2⟩

/-! ### C1 — content migration across recomputation

Step equations for the index-based merge pass, then the behaviour of one
`migrateContent` call in each situation the chain proofs need. -/

theorem findPartner_stop {olds : List (Option Segment)} {e nend : ℚ} {j k : Nat}
    (hk : ¬ k < olds.length) : findPartner olds e nend j k = none := by
  conv_lhs => rw [findPartner]
  rw [dif_neg hk]

theorem findPartner_skipj {olds : List (Option Segment)} {e nend : ℚ} {j k : Nat}
    (hk : k < olds.length) (hkj : k = j) :
    findPartner olds e nend j k = findPartner olds e nend j (k+1) := by
  conv_lhs => rw [findPartner]
  rw [dif_pos hk, if_pos hkj]

theorem findPartner_none {olds : List (Option Segment)} {e nend : ℚ} {j k : Nat}
    (hk : k < olds.length) (hkj : ¬ k = j) (h : olds.get ⟨k, hk⟩ = none) :
    findPartner olds e nend j k = findPartner olds e nend j (k+1) := by
  conv_lhs => rw [findPartner]
  rw [dif_pos hk, if_neg hkj, h]

theorem findPartner_found {olds : List (Option Segment)} {e nend : ℚ} {j k : Nat}
    {okSeg : Segment} (hk : k < olds.length) (hkj : ¬ k = j)
    (h : olds.get ⟨k, hk⟩ = some okSeg)
    (hcond : okSeg.end_time = nend ∧ e = okSeg.start_time) :
    findPartner olds e nend j k = some (k, okSeg) := by
  conv_lhs => rw [findPartner]
  rw [dif_pos hk, if_neg hkj, h]
  exact if_pos hcond

theorem findPartner_notfound {olds : List (Option Segment)} {e nend : ℚ} {j k : Nat}
    {okSeg : Segment} (hk : k < olds.length) (hkj : ¬ k = j)
    (h : olds.get ⟨k, hk⟩ = some okSeg)
    (hcond : ¬ (okSeg.end_time = nend ∧ e = okSeg.start_time)) :
    findPartner olds e nend j k = findPartner olds e nend j (k+1) := by
  conv_lhs => rw [findPartner]
  rw [dif_pos hk, if_neg hkj, h]
  exact if_neg hcond

theorem mergePassAux_stop {ns nend : ℚ} {acc : Option String}
    {olds : List (Option Segment)} {j : Nat} (hj : ¬ j < olds.length) :
    mergePassAux ns nend acc olds j = (acc, olds) := by
  conv_lhs => rw [mergePassAux]
  rw [dif_neg hj]

theorem mergePassAux_none {ns nend : ℚ} {acc : Option String}
    {olds : List (Option Segment)} {j : Nat} (hj : j < olds.length)
    (h : olds.get ⟨j, hj⟩ = none) :
    mergePassAux ns nend acc olds j = mergePassAux ns nend acc olds (j+1) := by
  conv_lhs => rw [mergePassAux]
  rw [dif_pos hj, h]

theorem mergePassAux_skip {ns nend : ℚ} {acc : Option String}
    {olds : List (Option Segment)} {j : Nat} {oj : Segment} (hj : j < olds.length)
    (h : olds.get ⟨j, hj⟩ = some oj) (hstart : ¬ oj.start_time = ns) :
    mergePassAux ns nend acc olds j = mergePassAux ns nend acc olds (j+1) := by
  conv_lhs => rw [mergePassAux]
  rw [dif_pos hj, h]
  exact if_neg hstart

theorem mergePassAux_nopartner {ns nend : ℚ} {acc : Option String}
    {olds : List (Option Segment)} {j : Nat} {oj : Segment} (hj : j < olds.length)
    (h : olds.get ⟨j, hj⟩ = some oj) (hstart : oj.start_time = ns)
    (hfp : findPartner olds oj.end_time nend j 0 = none) :
    mergePassAux ns nend acc olds j = mergePassAux ns nend acc olds (j+1) := by
  conv_lhs => rw [mergePassAux]
  rw [dif_pos hj, h]
  dsimp only
  rw [if_pos hstart, hfp]

theorem mergePassAux_fire {ns nend : ℚ} {acc : Option String}
    {olds : List (Option Segment)} {j k : Nat} {oj okSeg : Segment}
    (hj : j < olds.length) (h : olds.get ⟨j, hj⟩ = some oj)
    (hstart : oj.start_time = ns)
    (hfp : findPartner olds oj.end_time nend j 0 = some (k, okSeg)) :
    mergePassAux ns nend acc olds j =
      mergePassAux ns nend (some (joinContents oj.content okSeg.content))
        ((olds.set j none).set k none) (j+1) := by
  conv_lhs => rw [mergePassAux]
  rw [dif_pos hj, h]
  dsimp only
  rw [if_pos hstart, hfp]

/-- Merge pass makes no change when no unconsumed entry at or after `j`
starts at `ns`. -/
theorem mergePassAux_no_fire_aux {ns nend : ℚ} :
    ∀ (n : Nat) (olds : List (Option Segment)) (j : Nat) (acc : Option String),
      olds.length - j ≤ n →
      (∀ (k : Nat) (hk : k < olds.length), j ≤ k →
        ∀ o : Segment, olds.get ⟨k, hk⟩ = some o → ¬ o.start_time = ns) →
      mergePassAux ns nend acc olds j = (acc, olds) := by
  intro n
  induction n with
  | zero =>
      intro olds j acc hle _
      exact mergePassAux_stop (by omega)
  | succ n ih =>
      intro olds j acc hle hcond
      by_cases hj : j < olds.length
      · cases hget : olds.get ⟨j, hj⟩ with
        | none =>
            rw [mergePassAux_none hj hget]
            exact ih olds (j+1) acc (by omega)
              (fun k hk hjk o ho => hcond k hk (by omega) o ho)
        | some oj =>
            rw [mergePassAux_skip hj hget (hcond j hj (le_refl j) oj hget)]
            exact ih olds (j+1) acc (by omega)
              (fun k hk hjk o ho => hcond k hk (by omega) o ho)
      · exact mergePassAux_stop hj

theorem mergePassAux_no_fire {ns nend : ℚ} {olds : List (Option Segment)}
    {j : Nat} {acc : Option String}
    (hcond : ∀ (k : Nat) (hk : k < olds.length), j ≤ k →
      ∀ o : Segment, olds.get ⟨k, hk⟩ = some o → ¬ o.start_time = ns) :
    mergePassAux ns nend acc olds j = (acc, olds) :=
  mergePassAux_no_fire_aux olds.length olds j acc (by omega) hcond

theorem findPartner_cons_none_aux {e nend : ℚ} :
    ∀ (n : Nat) (olds : List (Option Segment)) (j k : Nat),
      olds.length - k ≤ n →
      findPartner (none :: olds) e nend (j+1) (k+1) =
        (findPartner olds e nend j k).map (fun p => (p.1 + 1, p.2)) := by
  intro n
  induction n with
  | zero =>
      intro olds j k hle
      rw [findPartner_stop (by simp; omega), findPartner_stop (by omega)]
      rfl
  | succ n ih =>
      intro olds j k hle
      by_cases hk : k < olds.length
      · have hk1 : k + 1 < (none :: olds).length := by simp; omega
        by_cases hkj : k = j
        · rw [findPartner_skipj hk1 (by omega), findPartner_skipj hk hkj]
          exact ih olds j (k+1) (by omega)
        · cases hget : olds.get ⟨k, hk⟩ with
          | none =>
              rw [findPartner_none hk1 (by omega) (by simpa using hget),
                findPartner_none hk hkj hget]
              exact ih olds j (k+1) (by omega)
          | some okSeg =>
              by_cases hcond : okSeg.end_time = nend ∧ e = okSeg.start_time
              · rw [findPartner_found hk1 (by omega) (by simpa using hget) hcond,
                  findPartner_found hk hkj hget hcond]
                rfl
              · rw [findPartner_notfound hk1 (by omega) (by simpa using hget) hcond,
                  findPartner_notfound hk hkj hget hcond]
                exact ih olds j (k+1) (by omega)
      · rw [findPartner_stop (by simp; omega), findPartner_stop hk]
        rfl

theorem findPartner_cons_none_zero {e nend : ℚ} (olds : List (Option Segment)) (j : Nat) :
    findPartner (none :: olds) e nend (j+1) 0 =
      (findPartner olds e nend j 0).map (fun p => (p.1 + 1, p.2)) := by
  rw [findPartner_none (by simp) (by omega) (by simp)]
  exact findPartner_cons_none_aux olds.length olds j 0 (by omega)

theorem mergePassAux_cons_none_aux {ns nend : ℚ} :
    ∀ (n : Nat) (olds : List (Option Segment)) (j : Nat) (acc : Option String),
      olds.length - j ≤ n →
      mergePassAux ns nend acc (none :: olds) (j+1) =
        ((mergePassAux ns nend acc olds j).1,
          none :: (mergePassAux ns nend acc olds j).2) := by
  intro n
  induction n with
  | zero =>
      intro olds j acc hle
      rw [mergePassAux_stop (by simp; omega), mergePassAux_stop (by omega)]
  | succ n ih =>
      intro olds j acc hle
      by_cases hj : j < olds.length
      · have hj1 : j + 1 < (none :: olds).length := by simp; omega
        cases hget : olds.get ⟨j, hj⟩ with
        | none =>
            rw [mergePassAux_none hj1 (by simpa using hget), mergePassAux_none hj hget]
            exact ih olds (j+1) acc (by omega)
        | some oj =>
            by_cases hstart : oj.start_time = ns
            · cases hfp : findPartner olds oj.end_time nend j 0 with
              | none =>
                  have hfp1 : findPartner (none :: olds) oj.end_time nend (j+1) 0 = none := by
                    rw [findPartner_cons_none_zero, hfp]
                    rfl
                  rw [mergePassAux_nopartner hj1 (by simpa using hget) hstart hfp1,
                    mergePassAux_nopartner hj hget hstart hfp]
                  exact ih olds (j+1) acc (by omega)
              | some q =>
                  obtain ⟨k, okSeg⟩ := q
                  have hfp1 : findPartner (none :: olds) oj.end_time nend (j+1) 0 =
                      some (k+1, okSeg) := by
                    rw [findPartner_cons_none_zero, hfp]
                    rfl
                  rw [mergePassAux_fire hj1 (by simpa using hget) hstart hfp1,
                    mergePassAux_fire hj hget hstart hfp]
                  have hset : ((none :: olds).set (j+1) none).set (k+1) none =
                      none :: ((olds.set j none).set k none) := rfl
                  rw [hset]
                  have hlen : ((olds.set j none).set k none).length = olds.length := by
                    simp
                  exact ih ((olds.set j none).set k none) (j+1) _ (by omega)
            · rw [mergePassAux_skip hj1 (by simpa using hget) hstart,
                mergePassAux_skip hj hget hstart]
              exact ih olds (j+1) acc (by omega)
      · rw [mergePassAux_stop (by simp; omega), mergePassAux_stop hj]

theorem exactSplitPass_head {ns nend : ℚ} {o : Segment}
    {rest : List (Option Segment)} (hcond : esCond ns nend o) :
    exactSplitPass ns nend (some o :: rest) = (o.content, none :: rest) := by
  simp only [exactSplitPass, if_pos hcond]

theorem exactSplitPass_no_match {ns nend : ℚ} :
    ∀ {olds : List (Option Segment)},
      (∀ o : Segment, some o ∈ olds → ¬ esCond ns nend o) →
      exactSplitPass ns nend olds = ("", olds) := by
  intro olds
  induction olds with
  | nil => intro _; rfl
  | cons x rest ih =>
      intro h
      cases x with
      | none =>
          simp only [exactSplitPass]
          rw [ih (fun o ho => h o (List.mem_cons_of_mem _ ho))]
      | some o =>
          have hcond : ¬ esCond ns nend o := h o (List.mem_cons_self _ _)
          simp only [exactSplitPass, if_neg hcond]
          rw [ih (fun o2 ho2 => h o2 (List.mem_cons_of_mem _ ho2))]

/-- The merge pass never fires when no unconsumed old segment starts at
`ns`: condition transfer from membership to positions. -/
theorem no_fire_of_mem {ns nend : ℚ} {olds : List (Option Segment)}
    {acc : Option String}
    (hstart : ∀ o : Segment, some o ∈ olds → ¬ o.start_time = ns) :
    mergePassAux ns nend acc olds 0 = (acc, olds) := by
  refine mergePassAux_no_fire ?_
  intro k hk _ o ho
  refine hstart o ?_
  rw [← ho]
  exact List.get_mem olds k hk

/-- One candidate, taking the head old segment by exact/split match; the
merge pass does not fire because every other old start differs from `ns`. -/
theorem migrateContent_head_take {ns nend : ℚ} {o : Segment}
    {rest : List (Option Segment)} (hcond : esCond ns nend o)
    (hrest : ∀ o2 : Segment, some o2 ∈ rest → ¬ o2.start_time = ns) :
    migrateContent ns nend (some o :: rest) = (o.content, none :: rest) := by
  unfold migrateContent
  rw [exactSplitPass_head hcond]
  dsimp only
  have h0 : (0:Nat) < (none :: rest).length := by simp
  rw [mergePassAux_none h0 rfl]
  rw [mergePassAux_cons_none_aux rest.length rest 0 none (by omega)]
  rw [no_fire_of_mem hrest]
  rfl

/-- One candidate matching nothing: content is empty and the old list is
untouched. -/
theorem migrateContent_no_match {ns nend : ℚ} {olds : List (Option Segment)}
    (hcond : ∀ o : Segment, some o ∈ olds → ¬ esCond ns nend o)
    (hstart : ∀ o : Segment, some o ∈ olds → ¬ o.start_time = ns) :
    migrateContent ns nend olds = ("", olds) := by
  unfold migrateContent
  rw [exactSplitPass_no_match hcond]
  dsimp only
  rw [no_fire_of_mem hstart]
  rfl

/-- One candidate that merges the two leading old segments: the first pass
matches nothing, the merge pass fires at position 0 with partner 1 and
consumes both. -/
theorem migrateContent_merge_pair {ns nend : ℚ} {A B : Segment}
    {rest : List (Option Segment)}
    (hA : A.start_time = ns) (hBe : B.end_time = nend)
    (hAB : A.end_time = B.start_time)
    (hnc : ∀ o : Segment, some o ∈ (some A :: some B :: rest : List (Option Segment)) →
      ¬ esCond ns nend o)
    (hrest : ∀ o : Segment, some o ∈ rest → ¬ o.start_time = ns) :
    migrateContent ns nend (some A :: some B :: rest) =
      (joinContents A.content B.content, none :: none :: rest) := by
  unfold migrateContent
  rw [exactSplitPass_no_match hnc]
  dsimp only
  have hj0 : (0:Nat) < (some A :: some B :: rest : List (Option Segment)).length := by simp
  have hget0 : (some A :: some B :: rest : List (Option Segment)).get ⟨0, hj0⟩ = some A := rfl
  have hj1 : (1:Nat) < (some A :: some B :: rest : List (Option Segment)).length := by simp
  have hget1 : (some A :: some B :: rest : List (Option Segment)).get ⟨1, hj1⟩ = some B := rfl
  have hfp : findPartner (some A :: some B :: rest) A.end_time nend 0 0 = some (1, B) := by
    rw [findPartner_skipj hj0 rfl]
    exact findPartner_found hj1 (by omega) hget1 ⟨hBe, hAB⟩
  rw [mergePassAux_fire hj0 hget0 hA hfp]
  have hset : (((some A :: some B :: rest : List (Option Segment)).set 0 none).set 1 none) =
      none :: none :: rest := rfl
  rw [hset]
  have hj1' : (1:Nat) < (none :: none :: rest : List (Option Segment)).length := by simp
  rw [mergePassAux_none hj1' rfl]
  have hcond2 : ∀ (k : Nat) (hk : k < (none :: none :: rest : List (Option Segment)).length),
      1+1 ≤ k → ∀ o : Segment,
        (none :: none :: rest : List (Option Segment)).get ⟨k, hk⟩ = some o →
        ¬ o.start_time = ns := by
    intro k hk h2k o ho
    obtain ⟨q, rfl⟩ : ∃ q, k = q + 2 := ⟨k - 2, by omega⟩
    refine hrest o ?_
    rw [← ho]
    simp only [List.get_cons_succ]
    exact List.get_mem rest q _
  rw [mergePassAux_no_fire hcond2]
  rfl

/-- A consumed entry at the head of the old list is invisible to one
migration step. -/
theorem migrateContent_cons_none {ns nend : ℚ} {olds : List (Option Segment)} :
    migrateContent ns nend (none :: olds) =
      ((migrateContent ns nend olds).1, none :: (migrateContent ns nend olds).2) := by
  unfold migrateContent
  simp only [exactSplitPass]
  have h0 : (0:Nat) < (none :: (exactSplitPass ns nend olds).2).length := by simp
  rw [mergePassAux_none h0 rfl]
  rw [mergePassAux_cons_none_aux (exactSplitPass ns nend olds).2.length
    (exactSplitPass ns nend olds).2 0 none (by omega)]

/-- Consumed entries at the head of the old list are invisible to the whole
recomputation. -/
theorem calcSegmentsAux_cons_none :
    ∀ (ms : List Marker) (i : Nat) (olds : List (Option Segment)),
      calcSegmentsAux i (none :: olds) ms = calcSegmentsAux i olds ms
  | [], _, _ => rfl
  | [_], _, _ => rfl
  | m1 :: m2 :: rest, i, olds => by
      simp only [calcSegmentsAux]
      rw [migrateContent_cons_none]
      dsimp only
      rw [calcSegmentsAux_cons_none (m2 :: rest) (i+1) _]


/-! ### C1: content migration across a whole recomputation

The two spec scenarios (split and merge) are verified for arbitrary
surrounding segment chains, and the `used_old_segments` discipline is
verified as stability of consumed entries: a consumed (i.e. `none`) entry
of the old-segment list is never revived by a migration step, so each old
segment is matched by at most one rule across the recomputation. -/

/-- A consumed entry in the old-segment list stays consumed through the
exact/split pass. -/
theorem exactSplitPass_none_stable {ns nend : ℚ} :
    ∀ (olds : List (Option Segment)) (k : Nat),
      olds.get? k = some none →
      (exactSplitPass ns nend olds).2.get? k = some none := by
  intro olds
  induction olds with
  | nil => intro k h; exact absurd h (by simp)
  | cons x rest ih =>
      intro k h
      cases x with
      | none =>
          cases k with
          | zero => rfl
          | succ k =>
              simp only [exactSplitPass]
              exact ih k h
      | some o =>
          cases k with
          | zero => exact absurd h (by simp)
          | succ k =>
              by_cases hc : esCond ns nend o
              · simp only [exactSplitPass, if_pos hc]
                exact h
              · simp only [exactSplitPass, if_neg hc]
                exact ih k h

/-- `List.set _ none` never revives a consumed entry. -/
theorem set_none_stable (l : List (Option Segment)) (i k : Nat)
    (h : l.get? k = some none) : (l.set i none).get? k = some none := by
  rcases eq_or_ne i k with rfl | hne
  · rw [List.get?_set_eq, h]
    rfl
  · rw [List.get?_set_ne _ _ hne]
    exact h

/-- A consumed entry stays consumed through the merge pass. -/
theorem mergePassAux_none_stable_aux {ns nend : ℚ} :
    ∀ (n : Nat) (olds : List (Option Segment)) (j : Nat) (acc : Option String)
      (k : Nat), olds.length - j ≤ n →
      olds.get? k = some none →
      (mergePassAux ns nend acc olds j).2.get? k = some none := by
  intro n
  induction n with
  | zero =>
      intro olds j acc k hle h
      rw [mergePassAux_stop (by omega)]
      exact h
  | succ n ih =>
      intro olds j acc k hle h
      by_cases hj : j < olds.length
      · cases hget : olds.get ⟨j, hj⟩ with
        | none =>
            rw [mergePassAux_none hj hget]
            exact ih olds (j+1) acc k (by omega) h
        | some oj =>
            by_cases hstart : oj.start_time = ns
            · cases hfp : findPartner olds oj.end_time nend j 0 with
              | none =>
                  rw [mergePassAux_nopartner hj hget hstart hfp]
                  exact ih olds (j+1) acc k (by omega) h
              | some p =>
                  obtain ⟨k2, okSeg⟩ := p
                  rw [mergePassAux_fire hj hget hstart hfp]
                  refine ih _ (j+1) _ k ?_ ?_
                  · simp only [List.length_set]; omega
                  · exact set_none_stable _ _ _ (set_none_stable _ _ _ h)
            · rw [mergePassAux_skip hj hget hstart]
              exact ih olds (j+1) acc k (by omega) h
      · rw [mergePassAux_stop hj]
        exact h

/-- A consumed entry stays consumed through a full migration step, so no old
segment is ever matched by two rules. -/
theorem migrateContent_none_stable {ns nend : ℚ} (olds : List (Option Segment))
    (k : Nat) (h : olds.get? k = some none) :
    (migrateContent ns nend olds).2.get? k = some none := by
  unfold migrateContent
  exact mergePassAux_none_stable_aux (exactSplitPass ns nend olds).2.length
    (exactSplitPass ns nend olds).2 0 none k (by omega)
    (exactSplitPass_none_stable olds k h)

/-- A chain of consecutive segments: entry `(t1, c)` turns the running start
bound `t0` into the segment `[t0, t1]` with content `c` and empty comment,
indices counting up from `i`.  This is exactly the shape
`_calculate_segments` produces for comment-free markers. -/
def chainOf : Nat → ℚ → List (ℚ × String) → List Segment
  | _, _, [] => []
  | i, t0, (t1, c) :: ps =>
      ⟨i, t0, t1, t1 - t0, "", c⟩ :: chainOf (i+1) t1 ps

/-- Markers named `"M"` placed at the given times. -/
def markersOf (ts : List ℚ) : List Marker :=
  ts.map (fun t => ⟨t, "M", "", ""⟩)

/-- Every start time in a chain is the initial bound or one of the listed
bounds. -/
theorem chainOf_start_mem : ∀ (ps : List (ℚ × String)) (i : Nat) (t0 : ℚ)
    (s : Segment), s ∈ chainOf i t0 ps →
      s.start_time = t0 ∨ s.start_time ∈ ps.map Prod.fst := by
  intro ps
  induction ps with
  | nil =>
      intro i t0 s h
      simp only [chainOf] at h
      exact absurd h (List.not_mem_nil s)
  | cons p ps ih =>
      intro i t0 s h
      obtain ⟨t1, c⟩ := p
      simp only [chainOf, List.mem_cons] at h
      rcases h with h | h
      · subst h
        exact Or.inl rfl
      · rcases ih (i+1) t1 s h with h2 | h2
        · right
          simp only [List.map_cons, List.mem_cons]
          exact Or.inl h2
        · right
          simp only [List.map_cons, List.mem_cons]
          exact Or.inr h2

/-- One unfolding step of the marker loop. -/
theorem calcSegmentsAux_cons2 (i : Nat) (olds : List (Option Segment))
    (m1 m2 : Marker) (rest : List Marker) :
    calcSegmentsAux i olds (m1 :: m2 :: rest) =
      { index := i, start_time := m1.time, end_time := m2.time,
        duration := m2.time - m1.time, comment := m1.comment,
        content := (migrateContent m1.time m2.time olds).1 }
        :: calcSegmentsAux (i+1) (migrateContent m1.time m2.time olds).2
            (m2 :: rest) := rfl

/-- A chain recomputed over its own bounds re-matches itself segment by
segment (old indices are irrelevant to the matching rules). -/
theorem calc_lockstep : ∀ (ps : List (ℚ × String)) (i j : Nat) (t0 : ℚ),
    List.Pairwise (· < ·) (t0 :: ps.map Prod.fst) →
    calcSegmentsAux i ((chainOf j t0 ps).map some)
        (markersOf (t0 :: ps.map Prod.fst)) = chainOf i t0 ps := by
  intro ps
  induction ps with
  | nil => intro i j t0 _; rfl
  | cons p ps ih =>
      intro i j t0 hp
      obtain ⟨t1, c⟩ := p
      simp only [List.map_cons] at hp ⊢
      rcases List.pairwise_cons.1 hp with ⟨h0, hp1⟩
      have h01 : t0 < t1 := h0 t1 (List.mem_cons_self _ _)
      have htail : ∀ o2 : Segment,
          some o2 ∈ (chainOf (j+1) t1 ps).map some → ¬ o2.start_time = t0 := by
        intro o2 ho2 hstart
        have ho2m : o2 ∈ chainOf (j+1) t1 ps := by
          rcases List.mem_map.1 ho2 with ⟨s, hs, heq⟩
          cases Option.some.inj heq
          exact hs
        rcases chainOf_start_mem ps (j+1) t1 o2 ho2m with h2 | h2
        · rw [hstart] at h2
          exact absurd h2 (ne_of_lt h01)
        · have hlt := h0 o2.start_time (List.mem_cons_of_mem _ h2)
          rw [hstart] at hlt
          exact lt_irrefl _ hlt
      have hmig : migrateContent t0 t1
          (some ⟨j, t0, t1, t1 - t0, "", c⟩ :: (chainOf (j+1) t1 ps).map some)
          = (c, none :: (chainOf (j+1) t1 ps).map some) :=
        migrateContent_head_take (Or.inl ⟨rfl, rfl⟩) htail
      simp only [chainOf, List.map_cons, markersOf]
      rw [calcSegmentsAux_cons2]
      dsimp only
      rw [hmig]
      dsimp only
      rw [calcSegmentsAux_cons_none]
      exact congrArg (List.cons _) (ih (i+1) (j+1) t1 hp1)


/-- Split scenario, stated over the marker loop: the old list is a chain in
which one segment spans `[a, b]` with content `X`, the new bounds insert `t`
strictly inside it; every other segment re-matches itself, the left part
`[a, t]` takes `X` and the right part `[t, b]` is created empty. -/
theorem calc_split : ∀ (ps₁ : List (ℚ × String)) (i j : Nat) (t0 : ℚ)
    (X : String) (t b : ℚ) (ps₂ : List (ℚ × String)),
    List.Pairwise (· < ·)
      (t0 :: (ps₁.map Prod.fst ++ t :: b :: ps₂.map Prod.fst)) →
    calcSegmentsAux i ((chainOf j t0 (ps₁ ++ (b, X) :: ps₂)).map some)
        (markersOf (t0 :: (ps₁.map Prod.fst ++ t :: b :: ps₂.map Prod.fst)))
      = chainOf i t0 (ps₁ ++ (t, X) :: (b, "") :: ps₂) := by
  intro ps₁
  induction ps₁ with
  | nil =>
      intro i j t0 X t b ps₂ hp
      simp only [List.map_nil, List.nil_append] at hp ⊢
      rcases List.pairwise_cons.1 hp with ⟨h0, hp1⟩
      rcases List.pairwise_cons.1 hp1 with ⟨ht, hp2⟩
      have h0t : t0 < t := h0 t (List.mem_cons_self _ _)
      have htb : t < b := ht b (List.mem_cons_self _ _)
      have htail : ∀ o : Segment, some o ∈ (chainOf (j+1) b ps₂).map some →
          t < o.start_time := by
        intro o ho
        have hom : o ∈ chainOf (j+1) b ps₂ := by
          rcases List.mem_map.1 ho with ⟨s, hs, heq⟩
          cases Option.some.inj heq
          exact hs
        rcases chainOf_start_mem ps₂ (j+1) b o hom with h2 | h2
        · rw [h2]
          exact htb
        · exact ht o.start_time (List.mem_cons_of_mem _ h2)
      have hmig1 : migrateContent t0 t
          (some ⟨j, t0, b, b - t0, "", X⟩ :: (chainOf (j+1) b ps₂).map some)
          = (X, none :: (chainOf (j+1) b ps₂).map some) := by
        refine migrateContent_head_take
          (Or.inr ⟨le_refl t0, h0t, le_of_lt htb, rfl⟩) ?_
        intro o2 ho2 hstart
        have hlt := htail o2 ho2
        rw [hstart] at hlt
        exact lt_asymm hlt h0t
      have hmig2 : migrateContent t b ((chainOf (j+1) b ps₂).map some)
          = ("", (chainOf (j+1) b ps₂).map some) := by
        refine migrateContent_no_match ?_ ?_
        · intro o ho hc
          have hlt := htail o ho
          unfold esCond at hc
          rcases hc with ⟨h2, _⟩ | ⟨_, _, _, h2⟩
          · rw [h2] at hlt
            exact lt_irrefl t hlt
          · rw [← h2] at hlt
            exact lt_irrefl t hlt
        · intro o ho h2
          have hlt := htail o ho
          rw [h2] at hlt
          exact lt_irrefl t hlt
      simp only [chainOf, List.map_cons, markersOf]
      rw [calcSegmentsAux_cons2]
      dsimp only
      rw [hmig1]
      dsimp only
      rw [calcSegmentsAux_cons_none]
      rw [calcSegmentsAux_cons2]
      dsimp only
      rw [hmig2]
      dsimp only
      exact congrArg (List.cons _)
        (congrArg (List.cons _) (calc_lockstep ps₂ (i+1+1) (j+1) b hp2))
  | cons p ps₁ ih =>
      intro i j t0 X t b ps₂ hp
      obtain ⟨t1, c⟩ := p
      simp only [List.map_cons, List.cons_append] at hp ⊢
      rcases List.pairwise_cons.1 hp with ⟨h0, hp1⟩
      have h01 : t0 < t1 := h0 t1 (List.mem_cons_self _ _)
      have htail : ∀ o2 : Segment,
          some o2 ∈ (chainOf (j+1) t1 (ps₁ ++ (b, X) :: ps₂)).map some →
          ¬ o2.start_time = t0 := by
        intro o2 ho2 hstart
        have ho2m : o2 ∈ chainOf (j+1) t1 (ps₁ ++ (b, X) :: ps₂) := by
          rcases List.mem_map.1 ho2 with ⟨s, hs, heq⟩
          cases Option.some.inj heq
          exact hs
        rcases chainOf_start_mem _ (j+1) t1 o2 ho2m with h2 | h2
        · rw [hstart] at h2
          exact absurd h2 (ne_of_lt h01)
        · rw [List.map_append, List.map_cons] at h2
          have hmem : o2.start_time ∈
              (t1 :: (ps₁.map Prod.fst ++ t :: b :: ps₂.map Prod.fst)) := by
            rcases List.mem_append.1 h2 with hx | hx
            · exact List.mem_cons_of_mem _ (List.mem_append.2 (Or.inl hx))
            · rcases List.mem_cons.1 hx with hx | hx
              · refine List.mem_cons_of_mem _ (List.mem_append.2 (Or.inr ?_))
                rw [hx]
                exact List.mem_cons_of_mem _ (List.mem_cons_self _ _)
              · exact List.mem_cons_of_mem _ (List.mem_append.2 (Or.inr
                  (List.mem_cons_of_mem _ (List.mem_cons_of_mem _ hx))))
          have hlt := h0 _ hmem
          rw [hstart] at hlt
          exact lt_irrefl _ hlt
      have hmig : migrateContent t0 t1
          (some ⟨j, t0, t1, t1 - t0, "", c⟩ ::
            (chainOf (j+1) t1 (ps₁ ++ (b, X) :: ps₂)).map some)
          = (c, none :: (chainOf (j+1) t1 (ps₁ ++ (b, X) :: ps₂)).map some) :=
        migrateContent_head_take (Or.inl ⟨rfl, rfl⟩) htail
      simp only [chainOf, List.map_cons, markersOf]
      rw [calcSegmentsAux_cons2]
      dsimp only
      rw [hmig]
      dsimp only
      rw [calcSegmentsAux_cons_none]
      exact congrArg (List.cons _) (ih (i+1) (j+1) t1 X t b ps₂ hp1)

/-- Merge scenario, stated over the marker loop: the old list is a chain with
two adjacent segments `[a, t]` (content `cA`) and `[t, b]` (content `cB`),
the new bounds drop `t`; every other segment re-matches itself and the
joined segment `[a, b]` takes the newline-join of the two contents. -/
theorem calc_merge : ∀ (ps₁ : List (ℚ × String)) (i j : Nat) (t0 : ℚ)
    (cA cB : String) (t b : ℚ) (ps₂ : List (ℚ × String)),
    List.Pairwise (· < ·)
      (t0 :: (ps₁.map Prod.fst ++ t :: b :: ps₂.map Prod.fst)) →
    calcSegmentsAux i
        ((chainOf j t0 (ps₁ ++ (t, cA) :: (b, cB) :: ps₂)).map some)
        (markersOf (t0 :: (ps₁.map Prod.fst ++ b :: ps₂.map Prod.fst)))
      = chainOf i t0 (ps₁ ++ (b, joinContents cA cB) :: ps₂) := by
  intro ps₁
  induction ps₁ with
  | nil =>
      intro i j t0 cA cB t b ps₂ hp
      simp only [List.map_nil, List.nil_append] at hp ⊢
      rcases List.pairwise_cons.1 hp with ⟨h0, hp1⟩
      rcases List.pairwise_cons.1 hp1 with ⟨ht, hp2⟩
      rcases List.pairwise_cons.1 hp2 with ⟨hb, hp3⟩
      have h0t : t0 < t := h0 t (List.mem_cons_self _ _)
      have htb : t < b := ht b (List.mem_cons_self _ _)
      have h0b : t0 < b := h0 b (List.mem_cons_of_mem _ (List.mem_cons_self _ _))
      have htail : ∀ o : Segment, some o ∈ (chainOf (j+1+1) b ps₂).map some →
          b ≤ o.start_time := by
        intro o ho
        have hom : o ∈ chainOf (j+1+1) b ps₂ := by
          rcases List.mem_map.1 ho with ⟨s, hs, heq⟩
          cases Option.some.inj heq
          exact hs
        rcases chainOf_start_mem ps₂ (j+1+1) b o hom with h2 | h2
        · rw [h2]
        · exact le_of_lt (hb o.start_time h2)
      have hmig : migrateContent t0 b
          (some ⟨j, t0, t, t - t0, "", cA⟩ ::
            some ⟨j+1, t, b, b - t, "", cB⟩ ::
            (chainOf (j+1+1) b ps₂).map some)
          = (joinContents cA cB,
             none :: none :: (chainOf (j+1+1) b ps₂).map some) := by
        refine migrateContent_merge_pair rfl rfl rfl ?_ ?_
        · intro o ho hc
          rcases List.mem_cons.1 ho with ho | ho
          · cases Option.some.inj ho
            unfold esCond at hc
            rcases hc with ⟨_, h2⟩ | ⟨_, _, h2, _⟩
            · exact absurd h2 (ne_of_lt htb)
            · exact absurd h2 (not_le.2 htb)
          · rcases List.mem_cons.1 ho with ho | ho
            · cases Option.some.inj ho
              unfold esCond at hc
              rcases hc with ⟨h2, _⟩ | ⟨_, _, _, h2⟩
              · exact absurd h2 (ne_of_gt h0t)
              · exact absurd h2 (ne_of_lt h0t)
            · have hstart2 : o.start_time = t0 := by
                unfold esCond at hc
                rcases hc with ⟨h2, _⟩ | ⟨_, _, _, h2⟩
                · exact h2
                · exact h2.symm
              have hge := htail o ho
              rw [hstart2] at hge
              exact absurd hge (not_le.2 h0b)
        · intro o ho hstart
          have hge := htail o ho
          rw [hstart] at hge
          exact absurd hge (not_le.2 h0b)
      simp only [chainOf, List.map_cons, markersOf]
      rw [calcSegmentsAux_cons2]
      dsimp only
      rw [hmig]
      dsimp only
      rw [calcSegmentsAux_cons_none, calcSegmentsAux_cons_none]
      exact congrArg (List.cons _) (calc_lockstep ps₂ (i+1) (j+1+1) b hp2)
  | cons p ps₁ ih =>
      intro i j t0 cA cB t b ps₂ hp
      obtain ⟨t1, c⟩ := p
      simp only [List.map_cons, List.cons_append] at hp ⊢
      rcases List.pairwise_cons.1 hp with ⟨h0, hp1⟩
      have h01 : t0 < t1 := h0 t1 (List.mem_cons_self _ _)
      have htail : ∀ o2 : Segment,
          some o2 ∈ (chainOf (j+1) t1 (ps₁ ++ (t, cA) :: (b, cB) :: ps₂)).map some →
          ¬ o2.start_time = t0 := by
        intro o2 ho2 hstart
        have ho2m : o2 ∈ chainOf (j+1) t1 (ps₁ ++ (t, cA) :: (b, cB) :: ps₂) := by
          rcases List.mem_map.1 ho2 with ⟨s, hs, heq⟩
          cases Option.some.inj heq
          exact hs
        rcases chainOf_start_mem _ (j+1) t1 o2 ho2m with h2 | h2
        · rw [hstart] at h2
          exact absurd h2 (ne_of_lt h01)
        · rw [List.map_append, List.map_cons, List.map_cons] at h2
          have hlt := h0 _ (List.mem_cons_of_mem _ h2)
          rw [hstart] at hlt
          exact lt_irrefl _ hlt
      have hmig : migrateContent t0 t1
          (some ⟨j, t0, t1, t1 - t0, "", c⟩ ::
            (chainOf (j+1) t1 (ps₁ ++ (t, cA) :: (b, cB) :: ps₂)).map some)
          = (c, none ::
              (chainOf (j+1) t1 (ps₁ ++ (t, cA) :: (b, cB) :: ps₂)).map some) :=
        migrateContent_head_take (Or.inl ⟨rfl, rfl⟩) htail
      simp only [chainOf, List.map_cons, markersOf]
      rw [calcSegmentsAux_cons2]
      dsimp only
      rw [hmig]
      dsimp only
      rw [calcSegmentsAux_cons_none]
      exact congrArg (List.cons _) (ih (i+1) (j+1) t1 cA cB t b ps₂ hp1)


/-- Markers at strictly ascending times are already time-sorted. -/
theorem markersOf_timeSorted {ts : List ℚ} (h : List.Pairwise (· < ·) ts) :
    TimeSorted (markersOf ts) := by
  unfold TimeSorted markersOf
  refine (List.chain'_map _).2 ?_
  exact List.Chain'.imp (fun a b hab => le_of_lt hab) h.chain'

/-- For at least two strictly ascending marker times, `_calculate_segments`
reduces to the marker loop over the given old-segment list. -/
theorem calculateSegments_markersOf {ts : List ℚ}
    (h : List.Pairwise (· < ·) ts) (h2 : 2 ≤ ts.length)
    (existing : List Segment) :
    calculateSegments (markersOf ts) existing
      = calcSegmentsAux 0 (existing.map some) (markersOf ts) := by
  have hlen : ¬ (markersOf ts).length < 2 := by
    unfold markersOf
    rw [List.length_map]
    omega
  rw [calculateSegments_eq, sortByTime_eq_self (markersOf_timeSorted h), if_neg hlen]

/-- C1: Across a recomputation of the segment list after a marker change
(`SegmentManager._calculate_segments`), (1) if a previous segment `[a, b]`
with content `X` exists and a marker is inserted strictly between `a` and `b`
at time `t`, the new segment `[a, t]` receives content `X` and the new
segment `[t, b]` receives empty content, with every surrounding segment of
the chain re-matched unchanged; (2) if two adjacent previous segments
`[a, t]` with content `cA` and `[t, b]` with content `cB` exist and the
marker at `t` is deleted, the new segment `[a, b]` receives the two contents
joined with a newline (empty parts skipped), again with every surrounding
segment re-matched unchanged; and (3) a previous segment once consumed stays
consumed through every further migration step, so each previous segment is
consumed by at most one matching rule across the whole recomputation. -/
theorem C1_content_migration :
    (∀ (ps₁ : List (ℚ × String)) (t0 : ℚ) (X : String) (t b : ℚ)
        (ps₂ : List (ℚ × String)),
      List.Pairwise (· < ·)
          (t0 :: (ps₁.map Prod.fst ++ t :: b :: ps₂.map Prod.fst)) →
      calculateSegments
          (markersOf (t0 :: (ps₁.map Prod.fst ++ t :: b :: ps₂.map Prod.fst)))
          (chainOf 0 t0 (ps₁ ++ (b, X) :: ps₂))
        = chainOf 0 t0 (ps₁ ++ (t, X) :: (b, "") :: ps₂)) ∧
    (∀ (ps₁ : List (ℚ × String)) (t0 : ℚ) (cA cB : String) (t b : ℚ)
        (ps₂ : List (ℚ × String)),
      List.Pairwise (· < ·)
          (t0 :: (ps₁.map Prod.fst ++ t :: b :: ps₂.map Prod.fst)) →
      calculateSegments
          (markersOf (t0 :: (ps₁.map Prod.fst ++ b :: ps₂.map Prod.fst)))
          (chainOf 0 t0 (ps₁ ++ (t, cA) :: (b, cB) :: ps₂))
        = chainOf 0 t0 (ps₁ ++ (b, joinContents cA cB) :: ps₂)) ∧
    (∀ (ns nend : ℚ) (olds : List (Option Segment)) (k : Nat),
      olds.get? k = some none →
      (migrateContent ns nend olds).2.get? k = some none) := by
  refine ⟨?_, ?_, ?_⟩
  · intro ps₁ t0 X t b ps₂ hp
    have hlen : 2 ≤
        (t0 :: (ps₁.map Prod.fst ++ t :: b :: ps₂.map Prod.fst)).length := by
      simp only [List.length_cons, List.length_append]
      omega
    rw [calculateSegments_markersOf hp hlen]
    exact calc_split ps₁ 0 0 t0 X t b ps₂ hp
  · intro ps₁ t0 cA cB t b ps₂ hp
    have hsub : List.Sublist
        (t0 :: (ps₁.map Prod.fst ++ b :: ps₂.map Prod.fst))
        (t0 :: (ps₁.map Prod.fst ++ t :: b :: ps₂.map Prod.fst)) :=
      ((List.sublist_cons_self t (b :: ps₂.map Prod.fst)).append_left
        (ps₁.map Prod.fst)).cons₂ t0
    have hpd := hp.sublist hsub
    have hlen : 2 ≤
        (t0 :: (ps₁.map Prod.fst ++ b :: ps₂.map Prod.fst)).length := by
      simp only [List.length_cons, List.length_append]
      omega
    rw [calculateSegments_markersOf hpd hlen]
    exact calc_merge ps₁ 0 0 t0 cA cB t b ps₂ hp
  · intro ns nend olds k h
    exact migrateContent_none_stable olds k h

/-- Witness for C1 at the spec's own examples: segment `[10, 40]` with
content `"X"` split by a marker at `25`, segments `[10, 25]`/`[25, 40]` with
contents `"A"`/`"B"` merged by deleting the marker at `25`, and a consumed
entry surviving a migration step. -/
theorem C1_content_migration_witness :
    List.Pairwise (· < ·) ([10, 25, 40] : List ℚ) ∧
    calculateSegments (markersOf [10, 25, 40]) (chainOf 0 10 [(40, "X")])
        = chainOf 0 10 [(25, "X"), (40, "")] ∧
    calculateSegments (markersOf [10, 40]) (chainOf 0 10 [(25, "A"), (40, "B")])
        = chainOf 0 10 [(40, joinContents "A" "B")] ∧
    (migrateContent 0 1 [none]).2.get? 0 = some none :=
  ⟨by decide,
   C1_content_migration.1 [] 10 "X" 25 40 [] (by decide),
   C1_content_migration.2.1 [] 10 "A" "B" 25 40 [] (by decide),
   C1_content_migration.2.2 0 1 [none] 0 rfl⟩

end Mp3
